import Mathlib

/-!
Shallow embedding of the worker-side send path of the DGT parameter-server
engine (src/3rdparty/ps-lite/include/ps/kv_app.h, class KVWorker), together
with proofs about the key-range slicer, the fragmenter, the contribution
scorer, the channel classifier, the adaptive-rate controller, the pull-side
reassembler and the callback registry.

Modelling conventions:
  - C++ float values are embedded as rationals; division is exact.  Where the
    C++ code can produce NaN (0.0/0.0 in adaptive_k when the loss feed is
    absent) we note that both NaN and the rational value 0 make the affected
    strict comparison false, so the branch taken is the same.
  - SArray payloads are lists; SArray::size() counts elements, and the
    variables that the source calls total_bytes / val_bytes / block_size are
    element counts (for Val = float they are proportional to bytes).
  - unordered_map fields whose absent entries are immediately initialised to
    0.0 by the source are embedded as total functions with default value 0;
    this is observationally identical.
  - std::rand() is an explicit parameter rnd; std::shuffle is an explicit
    list-transformer parameter shuf; std::sort is insertion sort (the source
    comparators have no equal-rank ties in the properties proved here).
  - while loops are embedded as structurally recursive functions on an
    explicit fuel that is instantiated so that it never runs out on the
    reachable inputs (the fuel bound is a hypothesis of each lemma).
-/

namespace DGT

attribute [local semireducible] Rat.add Rat.mul Rat.inv Rat.sub Rat.ofScientific

/-- Half-open key range [b, e) of one server, mirroring ps::Range. -/
structure KRange where
  b : ℕ
  e : ℕ
deriving DecidableEq, Repr

/-- KVPairs: ascending unique keys, concatenated values, optional per-key
lengths (empty list encodes "no lens"). -/
structure KVPairsM where
  keys : List ℕ
  vals : List ℚ
  lens : List ℕ
deriving DecidableEq, Repr, Inhabited

/-- SArray::segment(a, b2): the slice [a, b2) of a list. -/
def seg {α : Type} (l : List α) (a b2 : ℕ) : List α := (l.drop a).take (b2 - a)

/-- std::lower_bound on a sorted list: the number of leading elements below
v, i.e. the index of the first element that is not below v. -/
def lowerB (l : List ℕ) (v : ℕ) : ℕ := (l.takeWhile (fun x => x < v)).length

/-- The loop of KVWorker::DefaultSlicer that fills pos[1..n]: checks that
consecutive ranges are contiguous (CHECK_EQ(ranges[i-1].end(),
ranges[i].begin()), fatal = none) and accumulates the lower_bound lengths.
keys is the not-yet-consumed suffix (the source advances the begin
pointer), pcur is pos[i]. -/
def posLoop (keys : List ℕ) (prevE : ℕ) (pcur : ℕ) : List KRange → Option (List ℕ)
  | [] => some []
  | r :: rs =>
    if r.b ≠ prevE then none
    else
      let len := lowerB keys r.e
      let p2 := pcur + len
      (posLoop (keys.drop len) r.e p2 rs).map (fun l => p2 :: l)

/-- pos[0..n] of KVWorker::DefaultSlicer: pos[0] is the lower_bound of
ranges[0].begin() in keys, and each later entry adds the length of the key
interval falling below the corresponding range end. -/
def posAll (keys : List ℕ) : List KRange → Option (List ℕ)
  | [] => some [0]
  | r :: rs =>
    let p0 := lowerB keys r.b
    let rem := keys.drop p0
    let len := lowerB rem r.e
    let p1 := p0 + len
    (posLoop (rem.drop len) r.e p1 rs).map (fun l => p0 :: p1 :: l)

/-- Adjacent position pairs (pos[i], pos[i+1]). -/
def adjPairs (l : List ℕ) : List (ℕ × ℕ) := l.zip l.tail

/-- Slicing loop of DefaultSlicer when send.lens is empty: shard i gets
keys[pos i, pos (i+1)) and vals[pos i * k, pos (i+1) * k); an empty index
interval produces a skipped shard (first = false). -/
def sliceEven (keys : List ℕ) (vals : List ℚ) (k : ℕ) : List (ℕ × ℕ) → List (Bool × KVPairsM)
  | [] => []
  | (p, q) :: rest =>
    if q = p then (false, ⟨[], [], []⟩) :: sliceEven keys vals k rest
    else (true, ⟨seg keys p q, seg vals (p * k) (q * k), []⟩) :: sliceEven keys vals k rest

/-- Slicing loop of DefaultSlicer when send.lens is present: shard i gets
keys and lens [pos i, pos (i+1)) and the value slice [val_begin, val_end)
where val_end advances by the sum of the shard lens. -/
def sliceLens (keys : List ℕ) (vals : List ℚ) (lens : List ℕ) :
    List (ℕ × ℕ) → ℕ → List (Bool × KVPairsM)
  | [], _ => []
  | (p, q) :: rest, vb =>
    if q = p then (false, ⟨[], [], []⟩) :: sliceLens keys vals lens rest vb
    else
      let ls := seg lens p q
      let ve := vb + ls.sum
      (true, ⟨seg keys p q, seg vals vb ve, ls⟩) :: sliceLens keys vals lens rest ve

/-- KVWorker::DefaultSlicer.  none models a fatal CHECK failure:
non-contiguous ranges, pos[n] differing from keys.size(), a value length
that the key count does not divide (lens empty), or mismatched lens size. -/
def DefaultSlicer (send : KVPairsM) (ranges : List KRange) : Option (List (Bool × KVPairsM)) :=
  match posAll send.keys ranges with
  | none => none
  | some pos =>
    if pos.getLastD 0 ≠ send.keys.length then none
    else if send.keys = [] then
      some (ranges.map (fun _ => (false, ⟨[], [], []⟩)))
    else if send.lens = [] then
      let k := send.vals.length / send.keys.length
      if k * send.keys.length ≠ send.vals.length then none
      else some (sliceEven send.keys send.vals k (adjPairs pos))
    else
      if send.keys.length ≠ send.lens.length then none
      else some (sliceLens send.keys send.vals send.lens (adjPairs pos) 0)

/-- DGT scoring state of a KVWorker: the (first_key, seq)-indexed EMA
contribution map contri, the per-key running maximum contri_max and its
previous-op snapshot pre_contri_max.  Absent entries of the source's
unordered_maps read as 0. -/
structure DgtSt where
  contri : ℕ → ℕ → ℚ
  contri_max : ℕ → ℚ
  pre_contri_max : ℕ → ℚ

/-- Fresh DGT state: all maps empty (read as 0). -/
def dgtSt0 : DgtSt := ⟨fun _ _ => 0, fun _ => 0, fun _ => 0⟩

/-- KVWorker::Update_contri_max: reset contri_max[key] to 0 when seq == 0
(or when the key is absent, which the default-0 embedding makes the same),
then raise it to the new contribution if larger; when seq == seq_end,
snapshot pre_contri_max[key]. -/
def Update_contri_max (st : DgtSt) (key seq seq_end : ℕ) (c : ℚ) : DgtSt :=
  let cm0 := if seq = 0 then 0 else st.contri_max key
  let cm1 := if c > cm0 then c else cm0
  { st with
    contri_max := fun k2 => if k2 = key then cm1 else st.contri_max k2
    pre_contri_max := fun k2 =>
      if k2 = key ∧ seq = seq_end then cm1 else st.pre_contri_max k2 }

/-- Sum of absolute values of a block's weights (the N of the source). -/
def absSum (ws : List ℚ) : ℚ := (ws.map (fun w => |w|)).sum

/-- KVWorker::Evaluate_msg_contri on a block with weights ws: the EMA update
contri[key][seq] := alpha * contri[key][seq] + (1 - alpha) * (N / nlen),
followed by Update_contri_max; returns the new contribution and state. -/
def Evaluate_msg_contri (alpha : ℚ) (st : DgtSt) (key seq seq_end : ℕ) (ws : List ℚ) :
    ℚ × DgtSt :=
  let N := absSum ws
  let nlen : ℚ := (ws.length : ℚ)
  let c := alpha * st.contri key seq + (1 - alpha) * (N / nlen)
  let st1 := { st with contri := fun k2 s2 => if k2 = key ∧ s2 = seq then c else st.contri k2 s2 }
  (c, Update_contri_max st1 key seq seq_end c)

/-- The channel-scan loop of KVWorker::Get_channel: for i = 0..C-1, if
max_index - min_index > 0 return i+1 as soon as index lies in the i-th
C-division of [min_index, max_index], otherwise return i+1 immediately;
none models falling through all C iterations. -/
def chanLoop (idx mn mx C : ℤ) : ℕ → ℤ → Option ℤ
  | 0, _ => none
  | fuel + 1, i =>
    if mx - mn > 0 then
      if (mn : ℚ) + (i : ℚ) * ((mx : ℚ) - (mn : ℚ)) / (C : ℚ) ≤ (idx : ℚ) ∧
          (idx : ℚ) < (mn : ℚ) + ((i : ℚ) + 1) * ((mx : ℚ) - (mn : ℚ)) / (C : ℚ) then
        some (i + 1)
      else chanLoop idx mn mx C fuel (i + 1)
    else some (i + 1)

/-- KVWorker::Get_channel(index, max_index, C, k): min_index = round(k *
(max_index + 1)); ranks below min_index go to channel 0; otherwise the scan
loop; if it falls through, a pseudo-random channel rand() % C + 1, with the
rand() value an explicit parameter rnd. -/
def Get_channel (idx mx C : ℤ) (k : ℚ) (rnd : ℕ) : ℤ :=
  let mn := round (k * ((mx : ℚ) + 1))
  if idx < mn then 0
  else
    match chanLoop idx mn mx C C.toNat 0 with
    | some c => c
    | none => ((rnd % C.toNat : ℕ) : ℤ) + 1

/-- Loss observations of the rate controller (members of KVWorker). -/
structure LossSt where
  pre_loss : ℚ
  delta_l : ℚ
  first_loss : ℚ
  rt_loss : ℚ
deriving DecidableEq, Repr

/-- Fresh controller state: all fields 0, as the member initialisers. -/
def lossSt0 : LossSt := ⟨0, 0, 0, 0⟩

/-- KVWorker::Update_loss_delta: reading = none models fgets returning NULL
(absent or empty loss feed), in which case cur_loss keeps its initial 0.0;
delta_l = pre_loss - cur_loss, or 1 when pre_loss is 0; rt_loss is the
reading and first_loss latches the first non-zero reading. -/
def Update_loss_delta (st : LossSt) (reading : Option ℚ) : LossSt :=
  let cur := reading.getD 0
  { pre_loss := cur
    delta_l := if st.pre_loss ≠ 0 then st.pre_loss - cur else 1
    first_loss := if st.first_loss = 0 then cur else st.first_loss
    rt_loss := cur }

/-- KVWorker::adaptive_k: dmlc_k_init * (rt_loss / first_loss) when that
exceeds dmlc_k_min, else dmlc_k_min.  In C++ an absent feed makes the ratio
0.0/0.0 = NaN and the strict comparison false; in the rational embedding the
ratio is 0 and the comparison is also false whenever 0 <= dmlc_k_min, so the
same branch is taken. -/
def adaptive_k (kinit kmin : ℚ) (st : LossSt) : ℚ :=
  if kinit * (st.rt_loss / st.first_loss) > kmin then kinit * (st.rt_loss / st.first_loss)
  else kmin

/-- The per-step drop rate chosen by KVWorker::Send at a step boundary
(push_op_num > 1): adaptive_k when ADAPTIVE_K_FLAG is set, else
dmlc_k_init. -/
def stepDmlcK (flag : Bool) (kinit kmin : ℚ) (st : LossSt) : ℚ :=
  if flag then adaptive_k kinit kmin st else kinit

/-- A run of the rate controller: per step, Update_loss_delta on the next
reading then the dmlc_k selection, as KVWorker::Send does at each step
boundary after the first push op. -/
def runKs (flag : Bool) (kinit kmin : ℚ) : LossSt → List (Option ℚ) → List ℚ
  | _, [] => []
  | st, r :: rest =>
    let st2 := Update_loss_delta st r
    stepDmlcK flag kinit kmin st2 :: runKs flag kinit kmin st2 rest

/-- One outgoing block-push message (msg_type = 2) of KVWorker::Send with
the DGT meta fields the claims are about. -/
structure BMsg where
  first_key : ℕ
  seq : ℕ
  seq_begin : ℕ
  seq_end : ℕ
  val_bytes : ℕ
  total_bytes : ℕ
  push_op_num : ℤ
  vals : List ℚ
  contri : ℚ
  channel : ℤ
deriving DecidableEq, Repr

/-- The fragmentation while-loop of the block-push branch of
KVWorker::Send: cut min(remain, blockB) values, score the block
(Evaluate_msg_contri), and keep it unless CLEAR_ZERO drops a
zero-contribution non-terminal block.  fuel only needs to dominate the
number of iterations (remain suffices when blockB >= 1). -/
def buildMsgs (alpha : ℚ) (clear_zero : ℕ) (allVals : List ℚ) (key : ℕ) (pushOp : ℤ)
    (totalB seqEnd blockB : ℕ) :
    ℕ → ℕ → ℕ → ℕ → DgtSt → List BMsg × DgtSt
  | 0, _, _, _, st => ([], st)
  | fuel + 1, vb, seq, remain, st =>
    if remain = 0 then ([], st)
    else
      let l := min remain blockB
      let ws := (allVals.drop vb).take l
      let r1 := Evaluate_msg_contri alpha st key seq seqEnd ws
      let m : BMsg := ⟨key, seq, 0, seqEnd, vb, totalB, pushOp, ws, r1.1, 0⟩
      let r2 := buildMsgs alpha clear_zero allVals key pushOp totalB seqEnd blockB
        fuel (vb + l) (seq + 1) (remain - l) r1.2
      (if clear_zero ≠ 0 then
        (if r1.1 ≠ 0 ∨ seq = seqEnd then m :: r2.1 else r2.1)
       else m :: r2.1, r2.2)

/-- Contribution-descending comparator of the std::sort call in
KVWorker::Send (msg1.contri > msg2.contri, totalised as the reflexive
closure used by the sort model). -/
def contriGe (m1 m2 : BMsg) : Prop := m2.contri ≤ m1.contri

instance : DecidableRel contriGe := fun a b2 => inferInstanceAs (Decidable (b2.contri ≤ a.contri))

instance : IsTotal BMsg contriGe := ⟨fun a b2 => le_total b2.contri a.contri⟩

instance : IsTrans BMsg contriGe := ⟨fun _ _ _ h1 h2 => le_trans h2 h1⟩

/-- The ordering stage of the block-push branch: std::shuffle (modelled by
the parameter shuf) or std::sort by descending contribution, both applied to
all but the final element ([begin, end-1)); the final element stays last. -/
def arrangeMsgs (set_random : ℕ) (shuf : List BMsg → List BMsg) (l : List BMsg) : List BMsg :=
  (if set_random ≠ 0 then shuf l.dropLast else List.insertionSort contriGe l.dropLast) ++
    l.drop (l.length - 1)

/-- The channel-assignment loop of the block-push branch: position j gets
Get_channel(j, size-1, C, k), and a message with seq == seq_end is forced to
channel 0. -/
def withChannels (C : ℤ) (k : ℚ) (rnd : ℕ) (n : ℕ) : ℕ → List BMsg → List BMsg
  | _, [] => []
  | j, m :: rest =>
    { m with channel := if m.seq = m.seq_end then 0
                        else Get_channel (j : ℤ) ((n : ℤ) - 1) C k rnd } ::
      withChannels C k rnd n (j + 1) rest

/-- Channel assignment over the whole arranged vector. -/
def assignChannels (C : ℤ) (k : ℚ) (rnd : ℕ) (l : List BMsg) : List BMsg :=
  withChannels C k rnd l.length 0 l

/-- Configuration read by the block-push branch. -/
structure DgtCfg where
  contri_alpha : ℚ
  set_random : ℕ
  enable_block : ℕ
  block_size : ℕ
  clear_zero : ℕ
  udp_channel_num : ℤ
  dmlc_k : ℚ

/-- Block size used by the block-push branch: the whole payload when
DGT_ENABLE_BLOCK is 0, else the configured DGT_BLOCK_SIZE. -/
def blockSizeOf (cfg : DgtCfg) (total : ℕ) : ℕ :=
  if cfg.enable_block = 0 then total else cfg.block_size

/-- seq_num of the block-push branch: total / blockB, rounded up by the
source's explicit remainder test. -/
def seqNumOf (total blockB : ℕ) : ℕ :=
  if total % blockB = 0 then total / blockB else total / blockB + 1

/-- The complete block-push path of KVWorker::Send for one non-empty shard
kvs (push_op_num >= 2): fragmentation with scoring, optional CLEAR_ZERO
filter, ordering (sort or shuffle, terminal block pinned last), and channel
assignment with the terminal-block override. -/
def blockPush (cfg : DgtCfg) (st : DgtSt) (pushOp : ℤ) (kvs : KVPairsM)
    (shuf : List BMsg → List BMsg) (rnd : ℕ) : List BMsg × DgtSt :=
  let total := kvs.vals.length
  let bb := blockSizeOf cfg total
  let sn := seqNumOf total bb
  let key := kvs.keys.headD 0
  let r1 := buildMsgs cfg.contri_alpha cfg.clear_zero kvs.vals key pushOp total (sn - 1) bb
    total 0 0 total st
  (assignChannels cfg.udp_channel_num cfg.dmlc_k rnd (arrangeMsgs cfg.set_random shuf r1.1),
    r1.2)

/-- First key of a reply shard (s.keys.front() of the source; 0 on the
empty list, which the reachable states exclude). -/
def frontKey (s : KVPairsM) : ℕ := s.keys.headD 0

/-- Last key of a reply shard (s.keys.back()). -/
def backKey (s : KVPairsM) : ℕ := s.keys.getLastD 0

/-- Modelled from the spec: ps::FindRange (include/ps/range.h, not under
src/) locates the index sub-range of the sorted requested keys spanned by
[lo, hi) via two lower_bound searches; the pull reassembler only uses its
size, the number of requested keys in [lo, hi). -/
def findRangeLen (reqKeys : List ℕ) (lo hi : ℕ) : ℕ := lowerB reqKeys hi - lowerB reqKeys lo

/-- Front-key comparator of the std::sort call in the AddPullCB callback
(a.keys.front() < b.keys.front(), totalised for the sort model). -/
def frontLe (a b2 : KVPairsM) : Prop := frontKey a ≤ frontKey b2

instance : DecidableRel frontLe := fun a b2 =>
  inferInstanceAs (Decidable (frontKey a ≤ frontKey b2))

instance : IsTotal KVPairsM frontLe := ⟨fun a b2 => le_total (frontKey a) (frontKey b2)⟩

instance : IsTrans KVPairsM frontLe := ⟨fun _ _ _ h1 h2 => le_trans h1 h2⟩

/-- The completion callback installed by KVWorker::AddPullCB, as a function
of the requested keys and the accumulated reply entries recv_kvs[ts]: check
each entry against FindRange and (when lens are used) its lens size, check
that the entries together carry exactly keys.size() keys (else fatal =
none), sort the entries by front key, and concatenate vals (and lens). -/
def pullCB (reqKeys : List ℕ) (useLens : Bool) (entries : List KVPairsM) :
    Option (List ℚ × List ℕ) :=
  if ∀ s ∈ entries, findRangeLen reqKeys (frontKey s) (backKey s + 1) = s.keys.length ∧
      (useLens = true → s.lens.length = s.keys.length) then
    if (entries.map (fun s => s.keys.length)).sum = reqKeys.length then
      some (((List.insertionSort frontLe entries).map (fun s => s.vals)).flatten,
        if useLens then ((List.insertionSort frontLe entries).map (fun s => s.lens)).flatten
        else [])
    else none
  else none

/-- Worker pull-side buffer state: recv_kvs as a map from timestamps to the
accumulated reply entries. -/
structure PullSt where
  recv_kvs : ℤ → List KVPairsM

/-- Running the AddPullCB completion callback for ts: compute the
reassembled output from recv_kvs[ts], then erase recv_kvs[ts]; the user
callback runs afterwards exactly when the result is produced. -/
def pullComplete (ps : PullSt) (ts : ℤ) (reqKeys : List ℕ) (useLens : Bool) :
    Option ((List ℚ × List ℕ) × PullSt) :=
  (pullCB reqKeys useLens (ps.recv_kvs ts)).map
    (fun r => (r, ⟨fun t => if t = ts then [] else ps.recv_kvs t⟩))

/-- KVWorker::RunCallback in the sequential interleaving model: if a
callback is registered for ts, it fires (returned flag) and its entry is
erased; otherwise nothing happens. -/
def runCallback (cbs : ℤ → Bool) (ts : ℤ) : (ℤ → Bool) × Bool :=
  if cbs ts then (fun t => if t = ts then false else cbs t, true) else (cbs, false)

/-- How many of a sequence of RunCallback invocations fire the callback of
the fixed timestamp ts. -/
def fireCount (ts : ℤ) : (ℤ → Bool) → List ℤ → ℕ
  | _, [] => 0
  | cbs, t :: rest =>
    (if (runCallback cbs t).2 = true ∧ t = ts then 1 else 0) +
      fireCount ts (runCallback cbs t).1 rest

/-- The skipped-shard accounting at the top of KVWorker::Send: the callback
runs immediately iff the number of skipped (empty) shards equals the number
of shards. -/
def sendAllSkippedRuns (sliced : List Bool) : Prop :=
  sliced.countP (fun x => !x) = sliced.length

/-- Strict front-key order on reply shards (used to identify the unique
sorted arrangement). -/
def frontLt (a b2 : KVPairsM) : Prop := frontKey a < frontKey b2

instance : IsAntisymm KVPairsM frontLt :=
  ⟨fun _ _ h1 h2 => absurd (lt_trans h1 h2) (lt_irrefl _)⟩

/-- End of the last range of a list of ranges (d when the list is empty). -/
def lastEnd (rs : List KRange) (d : ℕ) : ℕ := (rs.map (fun r => r.e)).getLastD d

/-! ### Generic helper lemmas -/

theorem mem_withChannels {C : ℤ} {k : ℚ} {rnd : ℕ} {n : ℕ} :
    ∀ {j : ℕ} {l : List BMsg} {m : BMsg}, m ∈ withChannels C k rnd n j l →
      ∃ (j2 : ℕ) (m0 : BMsg), m0 ∈ l ∧
        m = { m0 with channel := if m0.seq = m0.seq_end then 0
                                 else Get_channel (j2 : ℤ) ((n : ℤ) - 1) C k rnd } := by
  intro j l
  induction l generalizing j with
  | nil => intro m hm; simp [withChannels] at hm
  | cons a rest ih =>
    intro m hm
    rw [withChannels] at hm
    rcases List.mem_cons.mp hm with h | h
    · exact ⟨j, a, List.mem_cons_self a rest, h⟩
    · obtain ⟨j2, m0, hmem, hEq⟩ := ih h
      exact ⟨j2, m0, List.mem_cons_of_mem a hmem, hEq⟩

theorem withChannels_map_proj {β : Type} (f : BMsg → β)
    (hf : ∀ m c, f { m with channel := c } = f m) (C : ℤ) (k : ℚ) (rnd : ℕ) (n : ℕ) :
    ∀ (j : ℕ) (l : List BMsg), (withChannels C k rnd n j l).map f = l.map f := by
  intro j l
  induction l generalizing j with
  | nil => rfl
  | cons a rest ih => rw [withChannels]; simp [hf, ih]

/-! ### C1 -/

/-- Claim C1: for every push handled by Send with push_op_num >= 2
(block-push), in every non-empty shard, every emitted block-push message
whose meta.seq equals meta.seq_end is dispatched with channel 0, regardless
of its contribution score and of the channel Get_channel assigned to its
rank. -/
theorem C1_terminal_channel0 (cfg : DgtCfg) (st : DgtSt) (pushOp : ℤ) (kvs : KVPairsM)
    (shuf : List BMsg → List BMsg) (rnd : ℕ) (m : BMsg)
    (hm : m ∈ (blockPush cfg st pushOp kvs shuf rnd).1) (hseq : m.seq = m.seq_end) :
    m.channel = 0 := by
  obtain ⟨j2, m0, _, hEq⟩ := mem_withChannels hm
  subst hEq
  simp only at hseq
  simp [if_pos hseq]

/-- Witness for C1 at a concrete one-block shard. -/
theorem C1_terminal_channel0_witness :
    (⟨0, 0, 0, 0, 0, 1, 2, [1], 7/10, 0⟩ : BMsg) ∈
      (blockPush ⟨3/10, 0, 0, 0, 0, 4, 1/2⟩ dgtSt0 2 ⟨[0], [1], []⟩ id 0).1 ∧
    (⟨0, 0, 0, 0, 0, 1, 2, [1], 7/10, 0⟩ : BMsg).channel = 0 :=
  ⟨by decide,
   C1_terminal_channel0 ⟨3/10, 0, 0, 0, 0, 4, 1/2⟩ dgtSt0 2 ⟨[0], [1], []⟩ id 0
     ⟨0, 0, 0, 0, 0, 1, 2, [1], 7/10, 0⟩ (by decide) (by decide)⟩

/-! ### C8 -/

theorem gtIte_eq_max (a c : ℚ) : (if a < c then c else a) = max a c := by
  rcases lt_or_le a c with h | h
  · rw [if_pos h, max_eq_right h.le]
  · rw [if_neg (not_lt.mpr h), max_eq_left h]


/-- Claim C8: for every block message with key, seq, and nlen weights of
absolute-value sum N, Evaluate_msg_contri updates contri[key][seq] to
alpha * contri[key][seq] + (1 - alpha) * (N / nlen) (absent entries read as
0; alpha defaults to 0.3), resets contri_max[key] to 0 on seq == 0 before
taking the running max with the new contribution, and on seq == seq_end
snapshots pre_contri_max[key] to contri_max[key]. -/
theorem C8_scorer (alpha : ℚ) (st : DgtSt) (key seq seq_end : ℕ) (ws : List ℚ)
    (hws : 0 < ws.length) :
    (Evaluate_msg_contri alpha st key seq seq_end ws).1 =
      alpha * st.contri key seq + (1 - alpha) * (absSum ws / (ws.length : ℚ)) ∧
    (Evaluate_msg_contri alpha st key seq seq_end ws).2.contri key seq =
      (Evaluate_msg_contri alpha st key seq seq_end ws).1 ∧
    (Evaluate_msg_contri alpha st key seq seq_end ws).2.contri_max key =
      max (if seq = 0 then 0 else st.contri_max key)
        (Evaluate_msg_contri alpha st key seq seq_end ws).1 ∧
    (seq = seq_end →
      (Evaluate_msg_contri alpha st key seq seq_end ws).2.pre_contri_max key =
        (Evaluate_msg_contri alpha st key seq seq_end ws).2.contri_max key) ∧
    (seq ≠ seq_end →
      (Evaluate_msg_contri alpha st key seq seq_end ws).2.pre_contri_max key =
        st.pre_contri_max key) := by
  refine ⟨rfl, ?_, ?_, ?_, ?_⟩
  · simp [Evaluate_msg_contri, Update_contri_max]
  · simp only [Evaluate_msg_contri, Update_contri_max]
    simp [gtIte_eq_max]
  · intro h
    simp [Evaluate_msg_contri, Update_contri_max, h]
  · intro h
    simp [Evaluate_msg_contri, Update_contri_max, h]

/-- Witness for C8 at a concrete two-weight block. -/
theorem C8_scorer_witness :
    0 < ([1, -3] : List ℚ).length ∧
    ((Evaluate_msg_contri (3/10) dgtSt0 4 0 2 [1, -3]).1 =
      (3/10) * dgtSt0.contri 4 0 + (1 - 3/10) * (absSum [1, -3] / (([1, -3] : List ℚ).length : ℚ)) ∧
    (Evaluate_msg_contri (3/10) dgtSt0 4 0 2 [1, -3]).2.contri 4 0 =
      (Evaluate_msg_contri (3/10) dgtSt0 4 0 2 [1, -3]).1 ∧
    (Evaluate_msg_contri (3/10) dgtSt0 4 0 2 [1, -3]).2.contri_max 4 =
      max (if (0 : ℕ) = 0 then 0 else dgtSt0.contri_max 4)
        (Evaluate_msg_contri (3/10) dgtSt0 4 0 2 [1, -3]).1 ∧
    ((0 : ℕ) = 2 →
      (Evaluate_msg_contri (3/10) dgtSt0 4 0 2 [1, -3]).2.pre_contri_max 4 =
        (Evaluate_msg_contri (3/10) dgtSt0 4 0 2 [1, -3]).2.contri_max 4) ∧
    ((0 : ℕ) ≠ 2 →
      (Evaluate_msg_contri (3/10) dgtSt0 4 0 2 [1, -3]).2.pre_contri_max 4 =
        dgtSt0.pre_contri_max 4)) :=
  ⟨by decide, C8_scorer (3/10) dgtSt0 4 0 2 [1, -3] (by decide)⟩

/-! ### C9 -/

theorem runCallback_fst_of_ne (cbs : ℤ → Bool) (t ts : ℤ) (hne : ts ≠ t) :
    (runCallback cbs t).1 ts = cbs ts := by
  unfold runCallback
  by_cases hc : cbs t
  · rw [if_pos hc]
    exact if_neg hne
  · rw [if_neg hc]

theorem fireCount_of_unregistered (ts : ℤ) :
    ∀ (l : List ℤ) (cbs : ℤ → Bool), cbs ts = false → fireCount ts cbs l = 0 := by
  intro l
  induction l with
  | nil => intro cbs _; rfl
  | cons t rest ih =>
    intro cbs h
    have h1 : (runCallback cbs t).1 ts = false := by
      by_cases hts : ts = t
      · subst hts
        unfold runCallback
        rw [h]
        simp [h]
      · rw [runCallback_fst_of_ne cbs t ts hts]; exact h
    have h2 : ¬((runCallback cbs t).2 = true ∧ t = ts) := by
      rintro ⟨hf, rfl⟩
      unfold runCallback at hf
      rw [h] at hf
      simp at hf
    rw [fireCount, if_neg h2, ih _ h1]

/-- Claim C9: in the sequential interleaving model, once a callback is
registered for ts it fires exactly once across any sequence of RunCallback
invocations that mentions ts (the firing erases the entry, so ts is
thereafter unknown and later RunCallback(ts) calls are no-ops), and the
immediate run inside Send happens iff every sliced shard is empty. -/
theorem C9_callback_once (cbs : ℤ → Bool) (ts : ℤ) (h : cbs ts = true) (l : List ℤ)
    (sliced : List Bool) :
    fireCount ts cbs l = (if ts ∈ l then 1 else 0) ∧
    (sendAllSkippedRuns sliced ↔ ∀ x ∈ sliced, x = false) := by
  constructor
  · induction l generalizing cbs with
    | nil => rfl
    | cons t rest ih =>
      by_cases hts : t = ts
      · subst hts
        have hrc2 : (runCallback cbs t).2 = true := by
          unfold runCallback; rw [h]; simp
        have hrc1 : (runCallback cbs t).1 t = false := by
          unfold runCallback; rw [h]; simp
        rw [fireCount, if_pos ⟨hrc2, rfl⟩, fireCount_of_unregistered t rest _ hrc1]
        simp
      · have hne : ts ≠ t := fun hq => hts hq.symm
        have h1 : (runCallback cbs t).1 ts = cbs ts := runCallback_fst_of_ne cbs t ts hne
        rw [fireCount, if_neg (fun hc => hts hc.2), ih _ (h1.trans h)]
        simp [List.mem_cons, hne]
  · unfold sendAllSkippedRuns
    rw [List.countP_eq_length]
    constructor
    · intro hall x hx
      have := hall x hx
      simpa using this
    · intro hall x hx
      simp [hall x hx]

/-- Witness for C9: a registered callback at ts = 0, invoked twice. -/
theorem C9_callback_once_witness :
    (fun t : ℤ => decide (t = 0)) 0 = true ∧
    (fireCount 0 (fun t : ℤ => decide (t = 0)) [0, 0] =
      (if (0 : ℤ) ∈ [(0 : ℤ), 0] then 1 else 0) ∧
    (sendAllSkippedRuns [false, false] ↔ ∀ x ∈ [false, false], x = false)) :=
  ⟨by decide, C9_callback_once (fun t : ℤ => decide (t = 0)) 0 (by decide) [0, 0] [false, false]⟩

/-! ### C6 -/

/-- Counterexample to claim C6 as stated: with the adaptive flag set,
dmlc_k_init = 1 and dmlc_k_min = 1/2, one step with an absent loss feed
produces drop rate 1/2 = dmlc_k_min, not the claimed fallback
dmlc_k_init = 1. -/
theorem C6_counterexample :
    runKs true 1 (1/2) lossSt0 [none] = [1/2] ∧ (1/2 : ℚ) ≠ 1 := by decide

theorem runKs_absent_aux (flag : Bool) (kinit kmin : ℚ) (hkmin : 0 ≤ kmin) :
    ∀ (n : ℕ) (st : LossSt), st.first_loss = 0 →
      runKs flag kinit kmin st (List.replicate n none) =
        List.replicate n (if flag then kmin else kinit) := by
  intro n
  induction n with
  | zero => intro st _; rfl
  | succ n2 ih =>
    intro st hfl
    rw [List.replicate_succ, List.replicate_succ]
    simp only [runKs]
    have hst2 : (Update_loss_delta st none).first_loss = 0 := by
      simp [Update_loss_delta, hfl]
    congr 1
    · unfold stepDmlcK
      cases flag
      · simp
      · simp only [if_pos rfl]
        unfold adaptive_k
        rw [hst2]
        have hrt : (Update_loss_delta st none).rt_loss = 0 := by
          simp [Update_loss_delta]
        rw [hrt]
        rw [div_zero, mul_zero, if_neg (not_lt.mpr hkmin)]
    · exact ih _ hst2

/-- Claim C6 amended: when the loss feed is absent every reading is taken
as 0 (rt_loss and pre_loss stay 0), and the drop rate falls back to
dmlc_k_init only when the adaptive flag is unset; with the flag set the
ratio rt_loss / first_loss degenerates (0.0/0.0, NaN in C++ and 0 in the
rational embedding, either of which fails the strict comparison against
dmlc_k_min when dmlc_k_min is nonnegative) and every step uses
dmlc_k_min instead. -/
theorem C6_amended (flag : Bool) (kinit kmin : ℚ) (hkmin : 0 ≤ kmin) (n : ℕ) :
    (∀ st : LossSt, (Update_loss_delta st none).rt_loss = 0 ∧
      (Update_loss_delta st none).pre_loss = 0) ∧
    runKs flag kinit kmin lossSt0 (List.replicate n none) =
      List.replicate n (if flag then kmin else kinit) :=
  ⟨fun st => ⟨rfl, rfl⟩, runKs_absent_aux flag kinit kmin hkmin n lossSt0 rfl⟩

/-- Witness for the amended C6 at flag = true, kinit = 1, kmin = 1/2,
two steps. -/
theorem C6_amended_witness :
    (0 : ℚ) ≤ 1/2 ∧
    ((∀ st : LossSt, (Update_loss_delta st none).rt_loss = 0 ∧
      (Update_loss_delta st none).pre_loss = 0) ∧
    runKs true 1 (1/2) lossSt0 (List.replicate 2 none) =
      List.replicate 2 (if true then 1/2 else 1)) :=
  ⟨by norm_num, C6_amended true 1 (1/2) (by norm_num) 2⟩

/-! ### C7 -/

theorem adaptive_k_eq_max (kinit kmin : ℚ) (st : LossSt) :
    adaptive_k kinit kmin st = max (kinit * (st.rt_loss / st.first_loss)) kmin := by
  unfold adaptive_k
  rcases lt_or_le kmin (kinit * (st.rt_loss / st.first_loss)) with h | h
  · rw [if_pos h, max_eq_left h.le]
  · rw [if_neg (not_lt.mpr h), max_eq_right h]

theorem runKs_adaptive_aux (kinit kmin L0 : ℚ) (hL0 : L0 ≠ 0) :
    ∀ (ls : List ℚ) (st : LossSt), st.first_loss = L0 →
      runKs true kinit kmin st (ls.map some) =
        ls.map (fun L => max (kinit * (L / L0)) kmin) := by
  intro ls
  induction ls with
  | nil => intro st _; rfl
  | cons L rest ih =>
    intro st hfl
    simp only [List.map_cons, runKs]
    have h2 : (Update_loss_delta st (some L)).first_loss = L0 := by
      simp only [Update_loss_delta, Option.getD_some, hfl]
      rw [if_neg hL0]
    congr 1
    · show stepDmlcK true kinit kmin (Update_loss_delta st (some L)) = _
      unfold stepDmlcK
      have hrt : (Update_loss_delta st (some L)).rt_loss = L := rfl
      rw [if_pos rfl, adaptive_k_eq_max, h2, hrt]
    · exact ih _ h2

/-- Claim C7: with the adaptive flag set, over a run whose loss readings
start positive and are non-increasing, the drop rate of every step equals
max(dmlc_k_init * (rt_loss / first_loss), dmlc_k_min) with first_loss
latched to the first reading, the rates are non-increasing across steps,
and every rate is bounded below by dmlc_k_min. -/
theorem C7_adaptive_monotone (kinit kmin L0 : ℚ) (rest : List ℚ)
    (hkinit : 0 ≤ kinit) (hL0 : 0 < L0)
    (hmono : List.Chain' (fun a b2 => b2 ≤ a) (L0 :: rest)) :
    runKs true kinit kmin lossSt0 ((L0 :: rest).map some) =
      (L0 :: rest).map (fun L => max (kinit * (L / L0)) kmin) ∧
    List.Chain' (fun a b2 => b2 ≤ a)
      (runKs true kinit kmin lossSt0 ((L0 :: rest).map some)) ∧
    ∀ x ∈ runKs true kinit kmin lossSt0 ((L0 :: rest).map some), kmin ≤ x := by
  have hL0ne : L0 ≠ 0 := ne_of_gt hL0
  have hmain : runKs true kinit kmin lossSt0 ((L0 :: rest).map some) =
      (L0 :: rest).map (fun L => max (kinit * (L / L0)) kmin) := by
    simp only [List.map_cons, runKs]
    have h1 : (Update_loss_delta lossSt0 (some L0)).first_loss = L0 := by
      simp [Update_loss_delta, lossSt0]
    congr 1
    · show stepDmlcK true kinit kmin (Update_loss_delta lossSt0 (some L0)) = _
      unfold stepDmlcK
      have hrt : (Update_loss_delta lossSt0 (some L0)).rt_loss = L0 := rfl
      rw [if_pos rfl, adaptive_k_eq_max, h1, hrt]
    · exact runKs_adaptive_aux kinit kmin L0 hL0ne rest _ h1
  refine ⟨hmain, ?_, ?_⟩
  · rw [hmain, List.chain'_map]
    refine List.Chain'.imp ?_ hmono
    intro a b2 hba
    refine max_le_max ?_ le_rfl
    exact mul_le_mul_of_nonneg_left ((div_le_div_iff_of_pos_right hL0).mpr hba) hkinit
  · rw [hmain]
    intro x hx
    obtain ⟨L, _, rfl⟩ := List.mem_map.mp hx
    exact le_max_right _ _

/-- Witness for C7 with kinit = 1, kmin = 1/10, readings 4 then 2. -/
theorem C7_adaptive_monotone_witness :
    ((0 : ℚ) ≤ 1 ∧ (0 : ℚ) < 4 ∧
      List.Chain' (fun a b2 => b2 ≤ a) [(4 : ℚ), 2]) ∧
    (runKs true 1 (1/10) lossSt0 ([(4 : ℚ), 2].map some) =
      [(4 : ℚ), 2].map (fun L => max (1 * (L / 4)) (1/10)) ∧
    List.Chain' (fun a b2 => b2 ≤ a)
      (runKs true 1 (1/10) lossSt0 ([(4 : ℚ), 2].map some)) ∧
    ∀ x ∈ runKs true 1 (1/10) lossSt0 ([(4 : ℚ), 2].map some), (1/10 : ℚ) ≤ x) :=
  ⟨⟨by norm_num, by norm_num,
    List.chain'_cons.mpr ⟨by norm_num, List.chain'_singleton 2⟩⟩,
   C7_adaptive_monotone 1 (1/10) 4 [2] (by norm_num) (by norm_num)
     (List.chain'_cons.mpr ⟨by norm_num, List.chain'_singleton 2⟩)⟩

/-! ### C2 -/

theorem chanCond_iff (idx mn mx C i : ℤ) (hd : mn < mx) (hC : 0 < C) :
    ((mn : ℚ) + (i : ℚ) * ((mx : ℚ) - (mn : ℚ)) / (C : ℚ) ≤ (idx : ℚ) ∧
      (idx : ℚ) < (mn : ℚ) + ((i : ℚ) + 1) * ((mx : ℚ) - (mn : ℚ)) / (C : ℚ)) ↔
    i = ⌊(C : ℚ) * ((idx : ℚ) - (mn : ℚ)) / ((mx : ℚ) - (mn : ℚ))⌋ := by
  have hdq : (0 : ℚ) < (mx : ℚ) - (mn : ℚ) := by
    rw [sub_pos]
    exact_mod_cast hd
  have hCq : (0 : ℚ) < (C : ℚ) := by exact_mod_cast hC
  have hA : ((mn : ℚ) + (i : ℚ) * ((mx : ℚ) - (mn : ℚ)) / (C : ℚ) ≤ (idx : ℚ)) ↔
      ((i : ℚ) * ((mx : ℚ) - (mn : ℚ)) / (C : ℚ) ≤ (idx : ℚ) - (mn : ℚ)) := by
    constructor <;> intro h <;> linarith
  have hB : ((idx : ℚ) < (mn : ℚ) + ((i : ℚ) + 1) * ((mx : ℚ) - (mn : ℚ)) / (C : ℚ)) ↔
      ((idx : ℚ) - (mn : ℚ) < ((i : ℚ) + 1) * ((mx : ℚ) - (mn : ℚ)) / (C : ℚ)) := by
    constructor <;> intro h <;> linarith
  rw [hA, hB, div_le_iff hCq, lt_div_iff hCq, eq_comm, Int.floor_eq_iff,
    le_div_iff hdq, div_lt_iff hdq]
  constructor
  · rintro ⟨h1, h2⟩
    constructor <;> push_cast <;> nlinarith
  · rintro ⟨h1, h2⟩
    constructor <;> push_cast at h1 h2 ⊢ <;> nlinarith

theorem chanLoop_finds (idx mn mx C istar : ℤ) (hd : mn < mx) (hC : 0 < C)
    (hfl : istar = ⌊(C : ℚ) * ((idx : ℚ) - (mn : ℚ)) / ((mx : ℚ) - (mn : ℚ))⌋) :
    ∀ (fuel : ℕ) (i : ℤ), i ≤ istar → istar < i + fuel →
      chanLoop idx mn mx C fuel i = some (istar + 1) := by
  intro fuel
  induction fuel with
  | zero => intro i h1 h2; omega
  | succ f ih =>
    intro i h1 h2
    simp only [chanLoop]
    rw [if_pos (by omega : mx - mn > 0)]
    by_cases hi : i = istar
    · rw [if_pos ((chanCond_iff idx mn mx C i hd hC).mpr (hi.trans hfl))]
      rw [hi]
    · rw [if_neg (fun hc => hi (((chanCond_iff idx mn mx C i hd hC).mp hc).trans hfl.symm))]
      exact ih (i + 1) (by omega) (by push_cast at h2 ⊢; omega)

theorem chanLoop_misses (idx mn mx C : ℤ) (hd : mn < mx) :
    ∀ (fuel : ℕ) (i : ℤ),
      (∀ j : ℤ, i ≤ j → j < i + fuel →
        ¬((mn : ℚ) + (j : ℚ) * ((mx : ℚ) - (mn : ℚ)) / (C : ℚ) ≤ (idx : ℚ) ∧
          (idx : ℚ) < (mn : ℚ) + ((j : ℚ) + 1) * ((mx : ℚ) - (mn : ℚ)) / (C : ℚ))) →
      chanLoop idx mn mx C fuel i = none := by
  intro fuel
  induction fuel with
  | zero => intro i _; rfl
  | succ f ih =>
    intro i hno
    simp only [chanLoop]
    rw [if_pos (by omega : mx - mn > 0)]
    rw [if_neg (hno i le_rfl (by push_cast; omega))]
    exact ih (i + 1) (fun j hj1 hj2 => hno j (by omega) (by push_cast at hj2 ⊢; omega))

/-- Counterexample to claim C2 as stated: at rank r = R = 1, C = 1, k = 0
(so r_min = 0 and R > r_min), the claimed channel is
1 + floor(C (r - r_min) / (R - r_min)) = 2, but Get_channel falls through
every division of [r_min, R] and returns the pseudo-random channel
rand() % C + 1 = 1. -/
theorem C2_counterexample :
    Get_channel 1 1 1 0 0 = 1 ∧
    round ((0 : ℚ) * ((1 : ℚ) + 1)) = 0 ∧
    (1 : ℤ) + ⌊(1 : ℚ) * ((1 : ℚ) - 0) / ((1 : ℚ) - 0)⌋ = 2 ∧
    (1 : ℤ) ≠ 2 := by
  refine ⟨by decide, by decide, ?_, by decide⟩
  norm_num

/-- Claim C2 amended: with r_min = round(k (R + 1)), Get_channel returns 0
for r < r_min; returns 1 + floor(C (r - r_min) / (R - r_min)) for
r_min <= r < R; at the very last rank r = R it instead falls through to
the pseudo-random channel rand() % C + 1 (in [1, C]) when R > r_min; and
when R <= r_min (so r = r_min = R) it returns channel 1 deterministically
rather than a pseudo-random channel. -/
theorem C2_amended (r R C : ℤ) (k : ℚ) (rnd : ℕ)
    (hr0 : 0 ≤ r) (hrR : r ≤ R) (hC : 1 ≤ C) (hk : 0 ≤ k) :
    (r < round (k * ((R : ℚ) + 1)) → Get_channel r R C k rnd = 0) ∧
    (round (k * ((R : ℚ) + 1)) ≤ r → r < R →
      Get_channel r R C k rnd =
        1 + ⌊(C : ℚ) * ((r : ℚ) - ((round (k * ((R : ℚ) + 1)) : ℤ) : ℚ)) /
              ((R : ℚ) - ((round (k * ((R : ℚ) + 1)) : ℤ) : ℚ))⌋) ∧
    (round (k * ((R : ℚ) + 1)) ≤ r → r = R → round (k * ((R : ℚ) + 1)) < R →
      Get_channel r R C k rnd = ((rnd % C.toNat : ℕ) : ℤ) + 1 ∧
      1 ≤ Get_channel r R C k rnd ∧ Get_channel r R C k rnd ≤ C) ∧
    (round (k * ((R : ℚ) + 1)) ≤ r → R ≤ round (k * ((R : ℚ) + 1)) →
      Get_channel r R C k rnd = 1) := by
  have hC0 : 0 < C := by omega
  refine ⟨?_, ?_, ?_, ?_⟩
  · intro hlt
    unfold Get_channel
    rw [if_pos hlt]
  · intro hge hltR
    unfold Get_channel
    rw [if_neg (not_lt.mpr hge)]
    set mn := round (k * ((R : ℚ) + 1)) with hmn
    have hd : mn < R := lt_of_le_of_lt hge hltR
    have hdq : (0 : ℚ) < (R : ℚ) - (mn : ℚ) := by
      rw [sub_pos]
      exact_mod_cast hd
    have hCq : (0 : ℚ) < (C : ℚ) := by exact_mod_cast hC0
    set istar := ⌊(C : ℚ) * ((r : ℚ) - (mn : ℚ)) / ((R : ℚ) - (mn : ℚ))⌋ with histar
    have h0 : 0 ≤ istar := by
      apply Int.floor_nonneg.mpr
      apply div_nonneg _ hdq.le
      apply mul_nonneg hCq.le
      rw [sub_nonneg]
      exact_mod_cast hge
    have hlt2 : istar < C := by
      rw [histar, Int.floor_lt]
      rw [div_lt_iff hdq]
      have hrmn : (r : ℚ) - (mn : ℚ) < (R : ℚ) - (mn : ℚ) := by
        have : (r : ℚ) < (R : ℚ) := by exact_mod_cast hltR
        linarith
      nlinarith
    rw [chanLoop_finds r mn R C istar hd hC0 histar.symm C.toNat 0 h0
      (by rw [Int.toNat_of_nonneg hC0.le]; omega)]
    rw [add_comm]
  · intro hge hEq hmnR
    subst hEq
    unfold Get_channel
    rw [if_neg (not_lt.mpr hge)]
    set mn := round (k * ((r : ℚ) + 1)) with hmn
    have hdq : (0 : ℚ) < (r : ℚ) - (mn : ℚ) := by
      rw [sub_pos]
      exact_mod_cast hmnR
    have hCq : (0 : ℚ) < (C : ℚ) := by exact_mod_cast hC0
    have hfloor : ⌊(C : ℚ) * ((r : ℚ) - (mn : ℚ)) / ((r : ℚ) - (mn : ℚ))⌋ = C := by
      rw [mul_div_assoc, div_self (ne_of_gt hdq), mul_one, Int.floor_intCast]
    have hmiss : chanLoop r mn r C C.toNat 0 = none := by
      apply chanLoop_misses r mn r C hmnR C.toNat 0
      intro j hj1 hj2 hc
      have hj : j = C := ((chanCond_iff r mn r C j hmnR hC0).mp hc).trans hfloor
      rw [Int.toNat_of_nonneg hC0.le] at hj2
      omega
    rw [hmiss]
    have hmod : rnd % C.toNat < C.toNat := Nat.mod_lt rnd (by omega)
    have hmod2 : ((rnd % C.toNat : ℕ) : ℤ) < C := by
      calc ((rnd % C.toNat : ℕ) : ℤ) < (C.toNat : ℤ) := by exact_mod_cast hmod
        _ = C := Int.toNat_of_nonneg hC0.le
    refine ⟨rfl, ?_, ?_⟩
    · show (1 : ℤ) ≤ ((rnd % C.toNat : ℕ) : ℤ) + 1
      omega
    · show ((rnd % C.toNat : ℕ) : ℤ) + 1 ≤ C
      omega
  · intro hge hRmn
    unfold Get_channel
    rw [if_neg (not_lt.mpr hge)]
    obtain ⟨f, hf⟩ : ∃ f, C.toNat = f + 1 := ⟨C.toNat - 1, by omega⟩
    rw [hf]
    simp only [chanLoop]
    rw [if_neg (by omega : ¬(R - round (k * ((R : ℚ) + 1)) > 0))]
    rfl

/-- Witness for the amended C2 at r = 0, R = 1, C = 2, k = 0, rnd = 0
(the deterministic-formula case). -/
theorem C2_amended_witness :
    ((0 : ℤ) ≤ 0 ∧ (0 : ℤ) ≤ 1 ∧ (1 : ℤ) ≤ 2 ∧ (0 : ℚ) ≤ 0) ∧
    (((0 : ℤ) < round ((0 : ℚ) * ((1 : ℚ) + 1)) → Get_channel 0 1 2 0 0 = 0) ∧
    (round ((0 : ℚ) * ((1 : ℚ) + 1)) ≤ 0 → (0 : ℤ) < 1 →
      Get_channel 0 1 2 0 0 =
        1 + ⌊(2 : ℚ) * ((0 : ℚ) - ((round ((0 : ℚ) * ((1 : ℚ) + 1)) : ℤ) : ℚ)) /
              ((1 : ℚ) - ((round ((0 : ℚ) * ((1 : ℚ) + 1)) : ℤ) : ℚ))⌋) ∧
    (round ((0 : ℚ) * ((1 : ℚ) + 1)) ≤ 0 → (0 : ℤ) = 1 →
      round ((0 : ℚ) * ((1 : ℚ) + 1)) < 1 →
      Get_channel 0 1 2 0 0 = ((0 % (2 : ℤ).toNat : ℕ) : ℤ) + 1 ∧
      1 ≤ Get_channel 0 1 2 0 0 ∧ Get_channel 0 1 2 0 0 ≤ 2) ∧
    (round ((0 : ℚ) * ((1 : ℚ) + 1)) ≤ 0 → (1 : ℤ) ≤ round ((0 : ℚ) * ((1 : ℚ) + 1)) →
      Get_channel 0 1 2 0 0 = 1)) :=
  ⟨⟨le_refl 0, by norm_num, by norm_num, le_refl 0⟩,
   C2_amended 0 1 2 0 0 (le_refl 0) (by norm_num) (by norm_num) (le_refl 0)⟩

/-! ### C3 -/

theorem seqNumOf_zero (blockB : ℕ) : seqNumOf 0 blockB = 0 := by
  unfold seqNumOf
  simp

theorem seqNumOf_step (remain blockB : ℕ) (h0 : 0 < remain) (hb : 0 < blockB) :
    seqNumOf remain blockB = seqNumOf (remain - min remain blockB) blockB + 1 := by
  rcases le_or_lt remain blockB with hle | hlt
  · rw [min_eq_left hle, Nat.sub_self, seqNumOf_zero]
    unfold seqNumOf
    rcases eq_or_lt_of_le hle with hEq | hlt2
    · rw [hEq, if_pos (Nat.mod_self blockB), Nat.div_self hb]
    · rw [Nat.mod_eq_of_lt hlt2, if_neg (by omega), Nat.div_eq_of_lt hlt2]
  · rw [min_eq_right hlt.le]
    unfold seqNumOf
    have hr : remain = (remain - blockB) + blockB := by omega
    have h1 : remain % blockB = (remain - blockB) % blockB := by
      conv_lhs => rw [hr]
      rw [Nat.add_mod_right]
    have h2 : remain / blockB = (remain - blockB) / blockB + 1 := by
      conv_lhs => rw [hr]
      rw [Nat.add_div_right _ hb]
    rw [h1, h2]
    by_cases hm : (remain - blockB) % blockB = 0 <;> simp [hm]

theorem seqNumOf_eq_ceil (t blockB : ℕ) (hb : 0 < blockB) :
    seqNumOf t blockB = (t + blockB - 1) / blockB := by
  unfold seqNumOf
  have hdm : blockB * (t / blockB) + t % blockB = t := Nat.div_add_mod t blockB
  have hrlt : t % blockB < blockB := Nat.mod_lt t hb
  by_cases hm : t % blockB = 0
  · rw [if_pos hm]
    have h2 : t + blockB - 1 = blockB * (t / blockB) + (blockB - 1) := by
      generalize blockB * (t / blockB) = A at hdm
      omega
    rw [h2, Nat.mul_add_div hb, Nat.div_eq_of_lt (show blockB - 1 < blockB by omega),
      Nat.add_zero]
  · rw [if_neg hm]
    have h2 : t + blockB - 1 = blockB * (t / blockB + 1) + (t % blockB - 1) := by
      have hx : blockB * (t / blockB + 1) = blockB * (t / blockB) + blockB := by ring
      rw [hx]
      generalize blockB * (t / blockB) = A at hdm
      omega
    rw [h2, Nat.mul_add_div hb, Nat.div_eq_of_lt (show t % blockB - 1 < blockB by omega),
      Nat.add_zero]

theorem buildMsgs_nil (alpha : ℚ) (cz : ℕ) (allVals : List ℚ) (key : ℕ) (pushOp : ℤ)
    (totalB seqEnd blockB : ℕ) :
    ∀ (fuel vb seq : ℕ) (st : DgtSt),
      (buildMsgs alpha cz allVals key pushOp totalB seqEnd blockB fuel vb seq 0 st).1 = [] := by
  intro fuel vb seq st
  cases fuel <;> rfl

theorem buildMsgs_fields (alpha : ℚ) (cz : ℕ) (allVals : List ℚ) (key : ℕ) (pushOp : ℤ)
    (totalB seqEnd blockB : ℕ) (hb : 0 < blockB) :
    ∀ (fuel vb seq remain : ℕ) (st : DgtSt), vb = seq * blockB →
      ∀ m ∈ (buildMsgs alpha cz allVals key pushOp totalB seqEnd blockB fuel vb seq remain st).1,
        m.val_bytes = m.seq * blockB ∧ m.seq_end = seqEnd ∧ m.total_bytes = totalB ∧
          m.first_key = key ∧ m.push_op_num = pushOp := by
  intro fuel
  induction fuel with
  | zero =>
    intro vb seq remain st _ m hm
    simp [buildMsgs] at hm
  | succ f ih =>
    intro vb seq remain st hvb m hm
    by_cases h0 : remain = 0
    · subst h0
      rw [buildMsgs_nil] at hm
      simp at hm
    · simp only [buildMsgs, if_neg h0] at hm
      have hmem : m = (⟨key, seq, 0, seqEnd, vb, totalB, pushOp,
          (allVals.drop vb).take (min remain blockB),
          (Evaluate_msg_contri alpha st key seq seqEnd
            ((allVals.drop vb).take (min remain blockB))).1, 0⟩ : BMsg) ∨
          m ∈ (buildMsgs alpha cz allVals key pushOp totalB seqEnd blockB f
            (vb + min remain blockB) (seq + 1) (remain - min remain blockB)
            (Evaluate_msg_contri alpha st key seq seqEnd
              ((allVals.drop vb).take (min remain blockB))).2).1 := by
        by_cases hcz : cz ≠ 0
        · rw [if_pos hcz] at hm
          by_cases hkeep : (Evaluate_msg_contri alpha st key seq seqEnd
              ((allVals.drop vb).take (min remain blockB))).1 ≠ 0 ∨ seq = seqEnd
          · rw [if_pos hkeep] at hm
            exact List.mem_cons.mp hm
          · rw [if_neg hkeep] at hm
            exact Or.inr hm
        · rw [if_neg hcz] at hm
          exact List.mem_cons.mp hm
      rcases hmem with rfl | hrest
      · exact ⟨hvb, rfl, rfl, rfl, rfl⟩
      · by_cases hrem : remain - min remain blockB = 0
        · rw [hrem, buildMsgs_nil] at hrest
          simp at hrest
        · have hl : min remain blockB = blockB := by
            rcases le_or_lt remain blockB with hle | hlt
            · omega
            · exact min_eq_right hlt.le
          refine ih (vb + min remain blockB) (seq + 1) _ _ ?_ m hrest
          rw [hl, hvb]
          ring

theorem buildMsgs_seq_map (alpha : ℚ) (allVals : List ℚ) (key : ℕ) (pushOp : ℤ)
    (totalB seqEnd blockB : ℕ) (hb : 0 < blockB) :
    ∀ (fuel vb seq remain : ℕ) (st : DgtSt), remain ≤ fuel →
      (buildMsgs alpha 0 allVals key pushOp totalB seqEnd blockB fuel vb seq remain st).1.map
          (fun m => m.seq) = List.range' seq (seqNumOf remain blockB) := by
  intro fuel
  induction fuel with
  | zero =>
    intro vb seq remain st hle
    have h0 : remain = 0 := Nat.le_zero.mp hle
    subst h0
    rw [seqNumOf_zero]
    rfl
  | succ f ih =>
    intro vb seq remain st hle
    by_cases h0 : remain = 0
    · subst h0
      rw [buildMsgs_nil, seqNumOf_zero]
      rfl
    · have hpos : 0 < remain := Nat.pos_of_ne_zero h0
      simp only [buildMsgs, if_neg h0, ne_eq, not_true_eq_false, if_false, List.map_cons]
      rw [seqNumOf_step remain blockB hpos hb, List.range'_succ]
      congr 1
      have hlmin : 0 < min remain blockB := lt_min hpos hb
      exact ih (vb + min remain blockB) (seq + 1) (remain - min remain blockB) _ (by omega)

theorem buildMsgs_vals_sum (alpha : ℚ) (allVals : List ℚ) (key : ℕ) (pushOp : ℤ)
    (totalB seqEnd blockB : ℕ) (hb : 0 < blockB) :
    ∀ (fuel vb seq remain : ℕ) (st : DgtSt), remain ≤ fuel →
      vb + remain ≤ allVals.length →
      ((buildMsgs alpha 0 allVals key pushOp totalB seqEnd blockB fuel vb seq remain st).1.map
          (fun m => m.vals.length)).sum = remain := by
  intro fuel
  induction fuel with
  | zero =>
    intro vb seq remain st hle _
    have h0 : remain = 0 := Nat.le_zero.mp hle
    subst h0
    rfl
  | succ f ih =>
    intro vb seq remain st hle hlen
    by_cases h0 : remain = 0
    · subst h0
      rw [buildMsgs_nil]
      rfl
    · have hpos : 0 < remain := Nat.pos_of_ne_zero h0
      have hlmin : 0 < min remain blockB := lt_min hpos hb
      simp only [buildMsgs, if_neg h0, ne_eq, not_true_eq_false, if_false, List.map_cons,
        List.sum_cons]
      rw [ih (vb + min remain blockB) (seq + 1) (remain - min remain blockB) _ (by omega)
        (by omega)]
      have hws : ((allVals.drop vb).take (min remain blockB)).length = min remain blockB := by
        rw [List.length_take, List.length_drop]
        omega
      rw [hws]
      omega

theorem buildMsgs_vals_len (alpha : ℚ) (allVals : List ℚ) (key : ℕ) (pushOp : ℤ)
    (totalB seqEnd blockB : ℕ) (hb : 0 < blockB) :
    ∀ (fuel vb seq remain : ℕ) (st : DgtSt), remain ≤ fuel →
      vb = seq * blockB → vb + remain = totalB → totalB ≤ allVals.length →
      ∀ m ∈ (buildMsgs alpha 0 allVals key pushOp totalB seqEnd blockB fuel vb seq remain st).1,
        m.vals.length = min (totalB - m.seq * blockB) blockB := by
  intro fuel
  induction fuel with
  | zero =>
    intro vb seq remain st hle _ _ _ m hm
    have h0 : remain = 0 := Nat.le_zero.mp hle
    subst h0
    rw [buildMsgs_nil] at hm
    simp at hm
  | succ f ih =>
    intro vb seq remain st hle hvb htot hlen m hm
    by_cases h0 : remain = 0
    · subst h0
      rw [buildMsgs_nil] at hm
      simp at hm
    · simp only [buildMsgs, if_neg h0, ne_eq, not_true_eq_false, if_false] at hm
      rcases List.mem_cons.mp hm with rfl | hrest
      · show ((allVals.drop vb).take (min remain blockB)).length =
          min (totalB - seq * blockB) blockB
        rw [List.length_take, List.length_drop, ← hvb]
        omega
      · by_cases hrem : remain - min remain blockB = 0
        · rw [hrem, buildMsgs_nil] at hrest
          simp at hrest
        · have hl : min remain blockB = blockB := by omega
          refine ih (vb + min remain blockB) (seq + 1) _ _ (by omega) ?_ (by omega) hlen m hrest
          rw [hl, hvb]
          ring

theorem arrangeMsgs_perm (set_random : ℕ) (shuf : List BMsg → List BMsg)
    (hshuf : ∀ l, (shuf l).Perm l) (l : List BMsg) :
    (arrangeMsgs set_random shuf l).Perm l := by
  unfold arrangeMsgs
  have hsplit : l.dropLast ++ l.drop (l.length - 1) = l := by
    rw [List.dropLast_eq_take]
    exact List.take_append_drop _ l
  have hord : (if set_random ≠ 0 then shuf l.dropLast
      else List.insertionSort contriGe l.dropLast).Perm l.dropLast := by
    by_cases hsr : set_random ≠ 0
    · rw [if_pos hsr]
      exact hshuf _
    · rw [if_neg hsr]
      exact List.perm_insertionSort contriGe l.dropLast
  have h1 := hord.append_right (l.drop (l.length - 1))
  rw [hsplit] at h1
  exact h1

theorem pipeline_facts (C : ℤ) (k : ℚ) (rnd : ℕ) (sr : ℕ) (shuf : List BMsg → List BMsg)
    (hshuf : ∀ l, (shuf l).Perm l) (msgs : List BMsg) :
    ((assignChannels C k rnd (arrangeMsgs sr shuf msgs)).map (fun m => m.seq)).Perm
      (msgs.map (fun m => m.seq)) ∧
    ((assignChannels C k rnd (arrangeMsgs sr shuf msgs)).map (fun m => m.vals.length)).Perm
      (msgs.map (fun m => m.vals.length)) ∧
    ∀ m ∈ assignChannels C k rnd (arrangeMsgs sr shuf msgs),
      ∃ m0 ∈ msgs, m.seq = m0.seq ∧ m.val_bytes = m0.val_bytes ∧ m.seq_end = m0.seq_end ∧
        m.vals = m0.vals := by
  have hperm := arrangeMsgs_perm sr shuf hshuf msgs
  refine ⟨?_, ?_, ?_⟩
  · unfold assignChannels
    rw [withChannels_map_proj (fun m => m.seq) (fun _ _ => rfl)]
    exact hperm.map (fun m => m.seq)
  · unfold assignChannels
    rw [withChannels_map_proj (fun m => m.vals.length) (fun _ _ => rfl)]
    exact hperm.map (fun m => m.vals.length)
  · intro m hm
    obtain ⟨j2, m0, hm0, rfl⟩ := mem_withChannels hm
    exact ⟨m0, hperm.subset hm0, rfl, rfl, rfl, rfl⟩

/-- Counterexample to claim C3 as stated: with CLEAR_ZERO = 1, a shard of
8 zero values and block size 4 emits only the terminal block (seq 1): the
seq values are [1], not 0..seq_end, and the emitted value lengths sum to
4, not |vals| = 8. -/
theorem C3_counterexample :
    ((blockPush ⟨3/10, 0, 1, 4, 1, 4, 1/2⟩ dgtSt0 2 ⟨[0], [0, 0, 0, 0, 0, 0, 0, 0], []⟩
        id 0).1.map (fun m => m.seq)) = [1] ∧
    ((blockPush ⟨3/10, 0, 1, 4, 1, 4, 1/2⟩ dgtSt0 2 ⟨[0], [0, 0, 0, 0, 0, 0, 0, 0], []⟩
        id 0).1.map (fun m => m.vals.length)).sum = 4 ∧
    ¬ ([1] : List ℕ).Perm (List.range 2) ∧ (4 : ℕ) ≠ 8 := by
  refine ⟨by decide, by decide, ?_, by decide⟩
  intro h
  exact absurd h.length_eq (by decide)

/-- Claim C3 amended: on the block-push path with block size b > 0 and the
clear-zero policy disabled (its default), the emitted block-push messages
carry seq values exactly 0..seq_end with seq_end + 1 = ceil(|vals| / b),
their val_bytes offsets are seq * b, their value-slice lengths sum to the
shard's |vals|, and each message's value-slice length is
min(|vals| - seq * b, b): b for every non-terminal block and the remainder
|vals| - seq_end * b for the terminal block.  (With CLEAR_ZERO = 1 the
source drops non-terminal zero-contribution blocks, as the counterexample
shows.) -/
theorem C3_amended (cfg : DgtCfg) (st : DgtSt) (pushOp : ℤ) (kvs : KVPairsM)
    (shuf : List BMsg → List BMsg) (rnd : ℕ)
    (hcz : cfg.clear_zero = 0) (hshuf : ∀ l, (shuf l).Perm l)
    (hb : 0 < blockSizeOf cfg kvs.vals.length) :
    ((blockPush cfg st pushOp kvs shuf rnd).1.map (fun m => m.seq)).Perm
      (List.range (seqNumOf kvs.vals.length (blockSizeOf cfg kvs.vals.length))) ∧
    (∀ m ∈ (blockPush cfg st pushOp kvs shuf rnd).1,
      m.val_bytes = m.seq * blockSizeOf cfg kvs.vals.length) ∧
    ((blockPush cfg st pushOp kvs shuf rnd).1.map (fun m => m.vals.length)).sum =
      kvs.vals.length ∧
    (∀ m ∈ (blockPush cfg st pushOp kvs shuf rnd).1,
      m.seq_end + 1 = (kvs.vals.length + blockSizeOf cfg kvs.vals.length - 1) /
        blockSizeOf cfg kvs.vals.length) ∧
    (∀ m ∈ (blockPush cfg st pushOp kvs shuf rnd).1,
      m.vals.length =
        min (kvs.vals.length - m.seq * blockSizeOf cfg kvs.vals.length)
          (blockSizeOf cfg kvs.vals.length) ∧
      (m.seq < m.seq_end → m.vals.length = blockSizeOf cfg kvs.vals.length) ∧
      (m.seq = m.seq_end →
        m.vals.length = kvs.vals.length - m.seq * blockSizeOf cfg kvs.vals.length)) := by
  obtain ⟨alpha, sr, eb, bs, cz, C0, k0⟩ := cfg
  simp only at hcz
  subst hcz
  have hfacts := pipeline_facts C0 k0 rnd sr shuf hshuf
    (buildMsgs alpha 0 kvs.vals (kvs.keys.headD 0) pushOp kvs.vals.length
      (seqNumOf kvs.vals.length (blockSizeOf ⟨alpha, sr, eb, bs, 0, C0, k0⟩
        kvs.vals.length) - 1)
      (blockSizeOf ⟨alpha, sr, eb, bs, 0, C0, k0⟩ kvs.vals.length)
      kvs.vals.length 0 0 kvs.vals.length st).1
  have hmsgs := buildMsgs_seq_map alpha kvs.vals (kvs.keys.headD 0) pushOp
    kvs.vals.length
    (seqNumOf kvs.vals.length (blockSizeOf ⟨alpha, sr, eb, bs, 0, C0, k0⟩
      kvs.vals.length) - 1)
    (blockSizeOf ⟨alpha, sr, eb, bs, 0, C0, k0⟩ kvs.vals.length) hb
    kvs.vals.length 0 0 kvs.vals.length st le_rfl
  have hsum := buildMsgs_vals_sum alpha kvs.vals (kvs.keys.headD 0) pushOp
    kvs.vals.length
    (seqNumOf kvs.vals.length (blockSizeOf ⟨alpha, sr, eb, bs, 0, C0, k0⟩
      kvs.vals.length) - 1)
    (blockSizeOf ⟨alpha, sr, eb, bs, 0, C0, k0⟩ kvs.vals.length) hb
    kvs.vals.length 0 0 kvs.vals.length st le_rfl (by omega)
  have hfields := buildMsgs_fields alpha 0 kvs.vals (kvs.keys.headD 0) pushOp
    kvs.vals.length
    (seqNumOf kvs.vals.length (blockSizeOf ⟨alpha, sr, eb, bs, 0, C0, k0⟩
      kvs.vals.length) - 1)
    (blockSizeOf ⟨alpha, sr, eb, bs, 0, C0, k0⟩ kvs.vals.length) hb
    kvs.vals.length 0 0 kvs.vals.length st (by ring)
  have hseqperm : ((blockPush ⟨alpha, sr, eb, bs, 0, C0, k0⟩ st pushOp kvs shuf rnd).1.map
      (fun m => m.seq)).Perm
      (List.range (seqNumOf kvs.vals.length
        (blockSizeOf ⟨alpha, sr, eb, bs, 0, C0, k0⟩ kvs.vals.length))) := by
    have h1 := hfacts.1
    rw [hmsgs] at h1
    rw [List.range_eq_range']
    exact h1
  refine ⟨hseqperm, ?_, ?_, ?_, ?_⟩
  · intro m hm
    obtain ⟨m0, hm0, hseq, hvb, _, _⟩ := hfacts.2.2 m hm
    rw [hvb, hseq]
    exact (hfields m0 hm0).1
  · have hout : (blockPush ⟨alpha, sr, eb, bs, 0, C0, k0⟩ st pushOp kvs shuf rnd).1 =
        assignChannels C0 k0 rnd (arrangeMsgs sr shuf
          (buildMsgs alpha 0 kvs.vals (kvs.keys.headD 0) pushOp kvs.vals.length
            (seqNumOf kvs.vals.length (blockSizeOf ⟨alpha, sr, eb, bs, 0, C0, k0⟩
              kvs.vals.length) - 1)
            (blockSizeOf ⟨alpha, sr, eb, bs, 0, C0, k0⟩ kvs.vals.length)
            kvs.vals.length 0 0 kvs.vals.length st).1) := rfl
    rw [hout, List.Perm.sum_eq hfacts.2.1]
    exact hsum
  · intro m hm
    have hsn : 0 < seqNumOf kvs.vals.length
        (blockSizeOf ⟨alpha, sr, eb, bs, 0, C0, k0⟩ kvs.vals.length) := by
      have h1 : m.seq ∈ (blockPush ⟨alpha, sr, eb, bs, 0, C0, k0⟩ st pushOp kvs shuf
          rnd).1.map (fun m => m.seq) := List.mem_map_of_mem (fun m => m.seq) hm
      have h2 := hseqperm.subset h1
      have h3 := List.mem_range.mp h2
      omega
    obtain ⟨m0, hm0, _, _, hse, _⟩ := hfacts.2.2 m hm
    rw [← seqNumOf_eq_ceil kvs.vals.length
      (blockSizeOf ⟨alpha, sr, eb, bs, 0, C0, k0⟩ kvs.vals.length) hb]
    have h4 := (hfields m0 hm0).2.1
    omega
  · intro m hm
    obtain ⟨m0, hm0, hseq, _, hse, hvals⟩ := hfacts.2.2 m hm
    have hml : m.vals.length = m0.vals.length := by rw [hvals]
    have h5 : m0.vals.length = min (kvs.vals.length - m0.seq *
        blockSizeOf ⟨alpha, sr, eb, bs, 0, C0, k0⟩ kvs.vals.length)
        (blockSizeOf ⟨alpha, sr, eb, bs, 0, C0, k0⟩ kvs.vals.length) :=
      buildMsgs_vals_len alpha kvs.vals (kvs.keys.headD 0) pushOp kvs.vals.length
        (seqNumOf kvs.vals.length (blockSizeOf ⟨alpha, sr, eb, bs, 0, C0, k0⟩
          kvs.vals.length) - 1)
        (blockSizeOf ⟨alpha, sr, eb, bs, 0, C0, k0⟩ kvs.vals.length) hb
        kvs.vals.length 0 0 kvs.vals.length st le_rfl (by ring) (by omega) le_rfl m0 hm0
    have hseqlt : m.seq < seqNumOf kvs.vals.length
        (blockSizeOf ⟨alpha, sr, eb, bs, 0, C0, k0⟩ kvs.vals.length) := by
      have h1 : m.seq ∈ (blockPush ⟨alpha, sr, eb, bs, 0, C0, k0⟩ st pushOp kvs shuf
          rnd).1.map (fun m => m.seq) := List.mem_map_of_mem (fun m => m.seq) hm
      exact List.mem_range.mp (hseqperm.subset h1)
    have hsend : m.seq_end = seqNumOf kvs.vals.length
        (blockSizeOf ⟨alpha, sr, eb, bs, 0, C0, k0⟩ kvs.vals.length) - 1 := by
      rw [hse]
      exact (hfields m0 hm0).2.1
    have hceil := seqNumOf_eq_ceil kvs.vals.length
      (blockSizeOf ⟨alpha, sr, eb, bs, 0, C0, k0⟩ kvs.vals.length) hb
    refine ⟨?_, ?_, ?_⟩
    · rw [hml, hseq]
      exact h5
    · intro hlt
      have h6 : m.seq + 2 ≤ seqNumOf kvs.vals.length
          (blockSizeOf ⟨alpha, sr, eb, bs, 0, C0, k0⟩ kvs.vals.length) := by omega
      rw [hceil] at h6
      have h7 : (m.seq + 2) * blockSizeOf ⟨alpha, sr, eb, bs, 0, C0, k0⟩ kvs.vals.length ≤
          kvs.vals.length + blockSizeOf ⟨alpha, sr, eb, bs, 0, C0, k0⟩ kvs.vals.length - 1 :=
        (Nat.le_div_iff_mul_le hb).mp h6
      have h8 : (m.seq + 2) * blockSizeOf ⟨alpha, sr, eb, bs, 0, C0, k0⟩ kvs.vals.length =
          m.seq * blockSizeOf ⟨alpha, sr, eb, bs, 0, C0, k0⟩ kvs.vals.length +
            2 * blockSizeOf ⟨alpha, sr, eb, bs, 0, C0, k0⟩ kvs.vals.length := by ring
      rw [h8, hseq] at h7
      rw [hml]
      generalize m0.seq * blockSizeOf ⟨alpha, sr, eb, bs, 0, C0, k0⟩ kvs.vals.length = A
        at h5 h7
      omega
    · intro heq
      have h6 : (kvs.vals.length + blockSizeOf ⟨alpha, sr, eb, bs, 0, C0, k0⟩
          kvs.vals.length - 1) / blockSizeOf ⟨alpha, sr, eb, bs, 0, C0, k0⟩
          kvs.vals.length < m.seq + 2 := by
        rw [← hceil]
        omega
      have h7 : kvs.vals.length + blockSizeOf ⟨alpha, sr, eb, bs, 0, C0, k0⟩
          kvs.vals.length - 1 <
          (m.seq + 2) * blockSizeOf ⟨alpha, sr, eb, bs, 0, C0, k0⟩ kvs.vals.length :=
        (Nat.div_lt_iff_lt_mul hb).mp h6
      have h8 : (m.seq + 2) * blockSizeOf ⟨alpha, sr, eb, bs, 0, C0, k0⟩ kvs.vals.length =
          m.seq * blockSizeOf ⟨alpha, sr, eb, bs, 0, C0, k0⟩ kvs.vals.length +
            2 * blockSizeOf ⟨alpha, sr, eb, bs, 0, C0, k0⟩ kvs.vals.length := by ring
      rw [h8, hseq] at h7
      rw [hml, hseq]
      generalize m0.seq * blockSizeOf ⟨alpha, sr, eb, bs, 0, C0, k0⟩ kvs.vals.length = A
        at h5 h7 ⊢
      omega

/-- Witness for the amended C3: a 5-value shard with block size 2 emits
blocks (0,0,2),(1,2,2),(2,4,1). -/
theorem C3_amended_witness :
    ((⟨3/10, 0, 1, 2, 0, 4, 1/2⟩ : DgtCfg).clear_zero = 0 ∧
      0 < blockSizeOf ⟨3/10, 0, 1, 2, 0, 4, 1/2⟩
        (⟨[0, 9], [1, 1, 1, 1, 1], []⟩ : KVPairsM).vals.length) ∧
    (((blockPush ⟨3/10, 0, 1, 2, 0, 4, 1/2⟩ dgtSt0 2 ⟨[0, 9], [1, 1, 1, 1, 1], []⟩
        id 0).1.map (fun m => m.seq)).Perm
      (List.range (seqNumOf (⟨[0, 9], [1, 1, 1, 1, 1], []⟩ : KVPairsM).vals.length
        (blockSizeOf ⟨3/10, 0, 1, 2, 0, 4, 1/2⟩
          (⟨[0, 9], [1, 1, 1, 1, 1], []⟩ : KVPairsM).vals.length))) ∧
    (∀ m ∈ (blockPush ⟨3/10, 0, 1, 2, 0, 4, 1/2⟩ dgtSt0 2 ⟨[0, 9], [1, 1, 1, 1, 1], []⟩
        id 0).1,
      m.val_bytes = m.seq * blockSizeOf ⟨3/10, 0, 1, 2, 0, 4, 1/2⟩
        (⟨[0, 9], [1, 1, 1, 1, 1], []⟩ : KVPairsM).vals.length) ∧
    ((blockPush ⟨3/10, 0, 1, 2, 0, 4, 1/2⟩ dgtSt0 2 ⟨[0, 9], [1, 1, 1, 1, 1], []⟩
        id 0).1.map (fun m => m.vals.length)).sum =
      (⟨[0, 9], [1, 1, 1, 1, 1], []⟩ : KVPairsM).vals.length ∧
    (∀ m ∈ (blockPush ⟨3/10, 0, 1, 2, 0, 4, 1/2⟩ dgtSt0 2 ⟨[0, 9], [1, 1, 1, 1, 1], []⟩
        id 0).1,
      m.seq_end + 1 = ((⟨[0, 9], [1, 1, 1, 1, 1], []⟩ : KVPairsM).vals.length +
        blockSizeOf ⟨3/10, 0, 1, 2, 0, 4, 1/2⟩
          (⟨[0, 9], [1, 1, 1, 1, 1], []⟩ : KVPairsM).vals.length - 1) /
        blockSizeOf ⟨3/10, 0, 1, 2, 0, 4, 1/2⟩
          (⟨[0, 9], [1, 1, 1, 1, 1], []⟩ : KVPairsM).vals.length) ∧
    (∀ m ∈ (blockPush ⟨3/10, 0, 1, 2, 0, 4, 1/2⟩ dgtSt0 2 ⟨[0, 9], [1, 1, 1, 1, 1], []⟩
        id 0).1,
      m.vals.length =
        min ((⟨[0, 9], [1, 1, 1, 1, 1], []⟩ : KVPairsM).vals.length -
            m.seq * blockSizeOf ⟨3/10, 0, 1, 2, 0, 4, 1/2⟩
              (⟨[0, 9], [1, 1, 1, 1, 1], []⟩ : KVPairsM).vals.length)
          (blockSizeOf ⟨3/10, 0, 1, 2, 0, 4, 1/2⟩
            (⟨[0, 9], [1, 1, 1, 1, 1], []⟩ : KVPairsM).vals.length) ∧
      (m.seq < m.seq_end → m.vals.length = blockSizeOf ⟨3/10, 0, 1, 2, 0, 4, 1/2⟩
        (⟨[0, 9], [1, 1, 1, 1, 1], []⟩ : KVPairsM).vals.length) ∧
      (m.seq = m.seq_end →
        m.vals.length = (⟨[0, 9], [1, 1, 1, 1, 1], []⟩ : KVPairsM).vals.length -
          m.seq * blockSizeOf ⟨3/10, 0, 1, 2, 0, 4, 1/2⟩
            (⟨[0, 9], [1, 1, 1, 1, 1], []⟩ : KVPairsM).vals.length))) :=
  ⟨⟨rfl, by decide⟩,
   C3_amended ⟨3/10, 0, 1, 2, 0, 4, 1/2⟩ dgtSt0 2 ⟨[0, 9], [1, 1, 1, 1, 1], []⟩ id 0 rfl
     (fun l => List.Perm.refl l) (by decide)⟩


/-! ### Slicer lemmas and claims C4, C10 -/


theorem seg_same {α : Type} (l : List α) (a : ℕ) : seg l a a = [] := by
  unfold seg
  simp

theorem seg_append {α : Type} (l : List α) (a b2 c : ℕ) (h1 : a ≤ b2) (h2 : b2 ≤ c) :
    seg l a b2 ++ seg l b2 c = seg l a c := by
  unfold seg
  have hc : c - a = (b2 - a) + (c - b2) := by omega
  have hb : b2 = a + (b2 - a) := by omega
  rw [hc, List.take_add, List.drop_drop, ← hb]

theorem chainLe_getLastD : ∀ (xs : List ℕ) (x : ℕ), List.Chain' (· ≤ ·) (x :: xs) →
    x ≤ (x :: xs).getLastD 0 := by
  intro xs
  induction xs with
  | nil => intro x _; rfl
  | cons y ys ih =>
    intro x h
    obtain ⟨hxy, h2⟩ := List.chain'_cons.mp h
    rw [List.getLastD_cons]
    calc x ≤ y := hxy
      _ ≤ (y :: ys).getLastD 0 := ih y h2

theorem adjPairs_cons_cons (a b2 : ℕ) (t : List ℕ) :
    adjPairs (a :: b2 :: t) = (a, b2) :: adjPairs (b2 :: t) := rfl

theorem adjPairs_single (a : ℕ) : adjPairs [a] = [] := rfl

theorem sliceEven_cons_eq (keys : List ℕ) (vals : List ℚ) (k p q : ℕ)
    (rest : List (ℕ × ℕ)) :
    sliceEven keys vals k ((p, q) :: rest) =
      (if q = p then (false, (⟨[], [], []⟩ : KVPairsM))
       else (true, ⟨seg keys p q, seg vals (p * k) (q * k), []⟩)) ::
        sliceEven keys vals k rest := by
  by_cases h : q = p <;> simp [sliceEven, h]

theorem sliceEven_flatten (keys : List ℕ) (vals : List ℚ) (k : ℕ) :
    ∀ (ps : List ℕ) (a : ℕ), List.Chain' (· ≤ ·) (a :: ps) →
      ((sliceEven keys vals k (adjPairs (a :: ps))).map (fun s => s.2.keys)).flatten =
        seg keys a ((a :: ps).getLastD 0) ∧
      ((sliceEven keys vals k (adjPairs (a :: ps))).map (fun s => s.2.vals)).flatten =
        seg vals (a * k) (((a :: ps).getLastD 0) * k) ∧
      ((sliceEven keys vals k (adjPairs (a :: ps))).map (fun s => s.2.lens)).flatten = [] := by
  intro ps
  induction ps with
  | nil =>
    intro a _
    refine ⟨?_, ?_, ?_⟩ <;>
      simp [adjPairs_single, sliceEven, seg_same]
  | cons b2 t ih =>
    intro a hch
    obtain ⟨hab, hch2⟩ := List.chain'_cons.mp hch
    have hblast : b2 ≤ (b2 :: t).getLastD 0 := chainLe_getLastD t b2 hch2
    have hlast : ((a :: b2 :: t) : List ℕ).getLastD 0 = (b2 :: t).getLastD 0 := by
      simp [List.getLastD_cons]
    obtain ⟨ihk, ihv, ihl⟩ := ih b2 hch2
    rw [adjPairs_cons_cons, sliceEven_cons_eq]
    by_cases hq : b2 = a
    · rw [if_pos hq]
      simp only [List.map_cons, List.flatten_cons]
      subst hq
      refine ⟨?_, ?_, ?_⟩
      · rw [hlast, List.nil_append, ihk]
      · rw [hlast, List.nil_append, ihv]
      · rw [List.nil_append, ihl]
    · rw [if_neg hq]
      simp only [List.map_cons, List.flatten_cons]
      refine ⟨?_, ?_, ?_⟩
      · rw [hlast, ihk]
        exact seg_append keys a b2 _ hab hblast
      · rw [hlast, ihv]
        exact seg_append vals (a * k) (b2 * k) _
          (Nat.mul_le_mul_right k hab) (Nat.mul_le_mul_right k hblast)
      · rw [ihl]
        rfl




theorem sliceLens_cons_eq (keys : List ℕ) (vals : List ℚ) (lens : List ℕ) (p q : ℕ)
    (rest : List (ℕ × ℕ)) (vb : ℕ) :
    sliceLens keys vals lens ((p, q) :: rest) vb =
      if q = p then (false, (⟨[], [], []⟩ : KVPairsM)) :: sliceLens keys vals lens rest vb
      else (true, ⟨seg keys p q, seg vals vb (vb + (seg lens p q).sum), seg lens p q⟩) ::
        sliceLens keys vals lens rest (vb + (seg lens p q).sum) := by
  by_cases h : q = p <;> simp [sliceLens, h]

theorem sliceLens_flatten (keys : List ℕ) (vals : List ℚ) (lens : List ℕ) :
    ∀ (ps : List ℕ) (a : ℕ) (vb : ℕ), List.Chain' (· ≤ ·) (a :: ps) →
      ((sliceLens keys vals lens (adjPairs (a :: ps)) vb).map (fun s => s.2.keys)).flatten =
        seg keys a ((a :: ps).getLastD 0) ∧
      ((sliceLens keys vals lens (adjPairs (a :: ps)) vb).map (fun s => s.2.lens)).flatten =
        seg lens a ((a :: ps).getLastD 0) ∧
      ((sliceLens keys vals lens (adjPairs (a :: ps)) vb).map (fun s => s.2.vals)).flatten =
        seg vals vb (vb + (seg lens a ((a :: ps).getLastD 0)).sum) := by
  intro ps
  induction ps with
  | nil =>
    intro a vb _
    refine ⟨?_, ?_, ?_⟩ <;>
      simp [adjPairs_single, sliceLens, seg_same]
  | cons b2 t ih =>
    intro a vb hch
    obtain ⟨hab, hch2⟩ := List.chain'_cons.mp hch
    have hblast : b2 ≤ (b2 :: t).getLastD 0 := chainLe_getLastD t b2 hch2
    have hlast : ((a :: b2 :: t) : List ℕ).getLastD 0 = (b2 :: t).getLastD 0 := by
      simp [List.getLastD_cons]
    rw [adjPairs_cons_cons, sliceLens_cons_eq]
    by_cases hq : b2 = a
    · rw [if_pos hq]
      obtain ⟨ihk, ihl, ihv⟩ := ih b2 vb hch2
      simp only [List.map_cons, List.flatten_cons]
      subst hq
      refine ⟨?_, ?_, ?_⟩
      · rw [hlast, List.nil_append, ihk]
      · rw [hlast, List.nil_append, ihl]
      · rw [hlast, List.nil_append, ihv]
    · rw [if_neg hq]
      obtain ⟨ihk, ihl, ihv⟩ := ih b2 (vb + (seg lens a b2).sum) hch2
      simp only [List.map_cons, List.flatten_cons]
      have hsegsum : (seg lens a ((b2 :: t).getLastD 0)).sum =
          (seg lens a b2).sum + (seg lens b2 ((b2 :: t).getLastD 0)).sum := by
        rw [← seg_append lens a b2 _ hab hblast, List.sum_append]
      refine ⟨?_, ?_, ?_⟩
      · rw [hlast, ihk]
        exact seg_append keys a b2 _ hab hblast
      · rw [hlast, ihl]
        exact seg_append lens a b2 _ hab hblast
      · rw [hlast, ihv, hsegsum]
        rw [show vb + ((seg lens a b2).sum + (seg lens b2 ((b2 :: t).getLastD 0)).sum) =
          (vb + (seg lens a b2).sum) + (seg lens b2 ((b2 :: t).getLastD 0)).sum by omega]
        exact seg_append vals vb (vb + (seg lens a b2).sum) _ (Nat.le_add_right _ _)
          (Nat.le_add_right _ _)




theorem lowerB_le_length (l : List ℕ) (v : ℕ) : lowerB l v ≤ l.length :=
  (List.takeWhile_sublist (fun x => x < v)).length_le

theorem lowerB_eq_zero (l : List ℕ) (v : ℕ) (h : ∀ x ∈ l, v ≤ x) : lowerB l v = 0 := by
  cases l with
  | nil => rfl
  | cons x t =>
    unfold lowerB
    rw [List.takeWhile_cons, if_neg]
    · rfl
    · simp only [decide_eq_true_eq]
      exact not_lt.mpr (h x (List.mem_cons_self x t))

theorem drop_length_takeWhile {α : Type} (p : α → Bool) (l : List α) :
    l.drop (l.takeWhile p).length = l.dropWhile p := by
  induction l with
  | nil => rfl
  | cons a t ih =>
    by_cases hp : p a
    · rw [List.takeWhile_cons, if_pos hp, List.dropWhile_cons, if_pos hp]
      simpa using ih
    · rw [List.takeWhile_cons, if_neg hp, List.dropWhile_cons, if_neg hp]
      rfl

theorem slicer_inv (send : KVPairsM) (ranges : List KRange) (sliced : List (Bool × KVPairsM))
    (hsucc : DefaultSlicer send ranges = some sliced) :
    ∃ pos, posAll send.keys ranges = some pos ∧ pos.getLastD 0 = send.keys.length ∧
      ((send.keys = [] ∧ sliced = ranges.map (fun _ => (false, ⟨[], [], []⟩))) ∨
       (send.keys ≠ [] ∧ send.lens = [] ∧
         (send.vals.length / send.keys.length) * send.keys.length = send.vals.length ∧
         sliced = sliceEven send.keys send.vals (send.vals.length / send.keys.length)
           (adjPairs pos)) ∨
       (send.keys ≠ [] ∧ send.lens ≠ [] ∧ send.keys.length = send.lens.length ∧
         sliced = sliceLens send.keys send.vals send.lens (adjPairs pos) 0)) := by
  unfold DefaultSlicer at hsucc
  rcases hpos : posAll send.keys ranges with _ | pos
  · rw [hpos] at hsucc
    exact absurd hsucc (by simp)
  · rw [hpos] at hsucc
    simp only at hsucc
    by_cases h1 : pos.getLastD 0 ≠ send.keys.length
    · rw [if_pos h1] at hsucc
      exact absurd hsucc (by simp)
    · rw [if_neg h1] at hsucc
      push_neg at h1
      refine ⟨pos, rfl, h1, ?_⟩
      by_cases h2 : send.keys = []
      · rw [if_pos h2] at hsucc
        exact Or.inl ⟨h2, (Option.some.inj hsucc).symm⟩
      · rw [if_neg h2] at hsucc
        by_cases h3 : send.lens = []
        · rw [if_pos h3] at hsucc
          by_cases h4 : (send.vals.length / send.keys.length) * send.keys.length ≠
              send.vals.length
          · rw [if_pos h4] at hsucc
            exact absurd hsucc (by simp)
          · rw [if_neg h4] at hsucc
            push_neg at h4
            exact Or.inr (Or.inl ⟨h2, h3, h4, (Option.some.inj hsucc).symm⟩)
        · rw [if_neg h3] at hsucc
          by_cases h5 : send.keys.length ≠ send.lens.length
          · rw [if_pos h5] at hsucc
            exact absurd hsucc (by simp)
          · rw [if_neg h5] at hsucc
            push_neg at h5
            exact Or.inr (Or.inr ⟨h2, h3, h5, (Option.some.inj hsucc).symm⟩)

theorem posAll_inv (keys : List ℕ) (r0 : KRange) (rs : List KRange) (pos : List ℕ)
    (hpos : posAll keys (r0 :: rs) = some pos) :
    ∃ l2, pos = lowerB keys r0.b :: (lowerB keys r0.b +
        lowerB (keys.drop (lowerB keys r0.b)) r0.e) :: l2 ∧
      posLoop ((keys.drop (lowerB keys r0.b)).drop
          (lowerB (keys.drop (lowerB keys r0.b)) r0.e)) r0.e
        (lowerB keys r0.b + lowerB (keys.drop (lowerB keys r0.b)) r0.e) rs = some l2 := by
  simp only [posAll] at hpos
  obtain ⟨l2, hl2, hl⟩ := Option.map_eq_some'.mp hpos
  exact ⟨l2, hl.symm, hl2⟩




theorem posLoop_chain : ∀ (rs : List KRange) (keys : List ℕ) (prevE pcur : ℕ)
    (l : List ℕ), posLoop keys prevE pcur rs = some l → List.Chain' (· ≤ ·) (pcur :: l) := by
  intro rs
  induction rs with
  | nil =>
    intro keys prevE pcur l h
    simp only [posLoop, Option.some.injEq] at h
    rw [← h]
    exact List.chain'_singleton pcur
  | cons r t ih =>
    intro keys prevE pcur l h
    simp only [posLoop] at h
    by_cases hb2 : r.b ≠ prevE
    · rw [if_pos hb2] at h
      exact absurd h (by simp)
    · rw [if_neg hb2] at h
      obtain ⟨l2, hl2, hl⟩ := Option.map_eq_some'.mp h
      rw [← hl]
      rw [List.chain'_cons]
      exact ⟨Nat.le_add_right pcur (lowerB keys r.e), ih _ _ _ _ hl2⟩

theorem posLoop_lastE : ∀ (rs : List KRange) (keys : List ℕ) (prevE pcur : ℕ) (l : List ℕ),
    posLoop keys prevE pcur rs = some l → (∀ r ∈ rs, r.b ≤ r.e) →
    prevE ≤ lastEnd rs prevE := by
  intro rs
  induction rs with
  | nil => intro keys prevE pcur l _ _; exact le_refl prevE
  | cons r t ih =>
    intro keys prevE pcur l h hvalid
    simp only [posLoop] at h
    by_cases hb2 : r.b ≠ prevE
    · rw [if_pos hb2] at h
      exact absurd h (by simp)
    · rw [if_neg hb2] at h
      obtain ⟨l2, hl2, _⟩ := Option.map_eq_some'.mp h
      push_neg at hb2
      have h1 : prevE ≤ r.e := by
        have := hvalid r (List.mem_cons_self r t)
        omega
      have h2 : r.e ≤ lastEnd t r.e :=
        ih _ _ _ _ hl2 (fun r2 hr2 => hvalid r2 (List.mem_cons_of_mem r hr2))
      have h3 : lastEnd (r :: t) prevE = lastEnd t r.e := by
        unfold lastEnd
        rw [List.map_cons, List.getLastD_cons]
      omega

theorem posLoop_covered : ∀ (rs : List KRange) (keys : List ℕ) (prevE pcur : ℕ)
    (l : List ℕ), posLoop keys prevE pcur rs = some l → (∀ r ∈ rs, r.b ≤ r.e) →
    l.getLastD pcur = pcur + keys.length →
    ∀ kk ∈ keys, kk < lastEnd rs prevE := by
  intro rs
  induction rs with
  | nil =>
    intro keys prevE pcur l h _ hlast kk hk
    simp only [posLoop, Option.some.injEq] at h
    rw [← h] at hlast
    simp only [List.getLastD_nil] at hlast
    have hz : keys.length = 0 := by omega
    rw [List.length_eq_zero.mp hz] at hk
    exact absurd hk (List.not_mem_nil kk)
  | cons r t ih =>
    intro keys prevE pcur l h hvalid hlast kk hk
    simp only [posLoop] at h
    by_cases hb2 : r.b ≠ prevE
    · rw [if_pos hb2] at h
      exact absurd h (by simp)
    · rw [if_neg hb2] at h
      obtain ⟨l2, hl2, hl⟩ := Option.map_eq_some'.mp h
      rw [← hl, List.getLastD_cons] at hlast
      have hlen : lowerB keys r.e ≤ keys.length := lowerB_le_length keys r.e
      have hlast2 : l2.getLastD (pcur + lowerB keys r.e) =
          (pcur + lowerB keys r.e) + (keys.drop (lowerB keys r.e)).length := by
        rw [List.length_drop]
        omega
      have hlend : lastEnd (r :: t) prevE = lastEnd t r.e := by
        unfold lastEnd
        rw [List.map_cons, List.getLastD_cons]
      rw [hlend]
      have hre : r.e ≤ lastEnd t r.e :=
        posLoop_lastE t _ _ _ _ hl2 (fun r2 hr2 => hvalid r2 (List.mem_cons_of_mem r hr2))
      have hsplit : keys.takeWhile (fun x => decide (x < r.e)) ++
          keys.drop (lowerB keys r.e) = keys := by
        unfold lowerB
        rw [drop_length_takeWhile]
        exact List.takeWhile_append_dropWhile _ _
      rw [← hsplit] at hk
      rcases List.mem_append.mp hk with hk1 | hk2
      · have hk3 := List.mem_takeWhile_imp hk1
        simp only [decide_eq_true_eq] at hk3
        omega
      · exact ih _ _ _ _ hl2 (fun r2 hr2 => hvalid r2 (List.mem_cons_of_mem r hr2))
          hlast2 kk hk2

theorem countP_flatten_mem_one {α : Type} [DecidableEq α] :
    ∀ (L : List (List α)) (x : α), L.flatten.Nodup → x ∈ L.flatten →
      L.countP (fun l => decide (x ∈ l)) = 1 := by
  intro L
  induction L with
  | nil => intro x _ hx; exact absurd hx (by simp)
  | cons l t ih =>
    intro x hnd hx
    rw [List.flatten_cons] at hx hnd
    rw [List.nodup_append] at hnd
    rw [List.countP_cons]
    rcases List.mem_append.mp hx with hxl | hxt
    · have hnot : x ∉ t.flatten := fun hc => hnd.2.2 hxl hc
      have hz : t.countP (fun l2 => decide (x ∈ l2)) = 0 := by
        rw [List.countP_eq_zero]
        intro l2 hl2 hdec
        exact hnot (List.mem_flatten.mpr ⟨l2, hl2, of_decide_eq_true hdec⟩)
      rw [hz, if_pos (decide_eq_true hxl)]
    · have hxnl : x ∉ l := fun hc => hnd.2.2 hc hxt
      rw [ih x hnd.2.1 hxt, if_neg (by simpa using hxnl)]




theorem seg_full {α : Type} (l : List α) : seg l 0 l.length = l := by
  unfold seg
  simp

theorem flatten_map_const_empty {β : Type} (L : List KRange) (g : Bool × KVPairsM → List β)
    (hg : g (false, ⟨[], [], []⟩) = []) :
    ((L.map (fun _ => (false, (⟨[], [], []⟩ : KVPairsM)))).map g).flatten = [] := by
  induction L with
  | nil => rfl
  | cons r t ih => simp [hg, ih]

/-- Claim C4 (proof body): DefaultSlicer reproduces the batch exactly. -/
theorem C4_slicer (send : KVPairsM) (r0 : KRange) (rs : List KRange)
    (sliced : List (Bool × KVPairsM))
    (hsorted : List.Sorted (· < ·) send.keys)
    (hcover : ∀ kk ∈ send.keys, r0.b ≤ kk)
    (hdiv : send.lens = [] → send.keys.length ∣ send.vals.length)
    (hlsum : send.lens ≠ [] → send.lens.length = send.keys.length ∧
      send.lens.sum = send.vals.length)
    (hsucc : DefaultSlicer send (r0 :: rs) = some sliced) :
    ((sliced.map (fun s => s.2.keys)).flatten = send.keys ∧
     (sliced.map (fun s => s.2.vals)).flatten = send.vals ∧
     (sliced.map (fun s => s.2.lens)).flatten = send.lens) ∧
    ∀ kk ∈ send.keys, sliced.countP (fun s => decide (kk ∈ s.2.keys)) = 1 := by
  obtain ⟨pos, hpos, hlenchk, hcase⟩ := slicer_inv send (r0 :: rs) sliced hsucc
  obtain ⟨l2, hposEq, hloop⟩ := posAll_inv send.keys r0 rs pos hpos
  have hp0 : lowerB send.keys r0.b = 0 := lowerB_eq_zero _ _ hcover
  rw [hp0, Nat.zero_add, List.drop_zero] at hposEq hloop
  have hchain : List.Chain' (· ≤ ·) (0 :: lowerB send.keys r0.e :: l2) := by
    rw [List.chain'_cons]
    exact ⟨Nat.zero_le _, posLoop_chain rs _ _ _ _ hloop⟩
  rw [hposEq] at hlenchk
  have hmainflat : (sliced.map (fun s => s.2.keys)).flatten = send.keys ∧
      (sliced.map (fun s => s.2.vals)).flatten = send.vals ∧
      (sliced.map (fun s => s.2.lens)).flatten = send.lens := by
    rcases hcase with ⟨hke, hsl⟩ | ⟨hkne, hle, hk4, hsl⟩ | ⟨hkne, hlne, h5, hsl⟩
    · subst hsl
      have hlens0 : send.lens = [] := by
        by_contra hln
        have := (hlsum hln).1
        rw [hke] at this
        simp at this
        exact hln this
      have hvals0 : send.vals = [] := by
        have hd := hdiv hlens0
        rw [hke] at hd
        simp at hd
        exact hd
      refine ⟨?_, ?_, ?_⟩
      · rw [flatten_map_const_empty _ _ rfl, hke]
      · rw [flatten_map_const_empty _ _ rfl, hvals0]
      · rw [flatten_map_const_empty _ _ rfl, hlens0]
    · subst hsl
      rw [hposEq]
      obtain ⟨hfk, hfv, hfl⟩ := sliceEven_flatten send.keys send.vals
        (send.vals.length / send.keys.length) (lowerB send.keys r0.e :: l2) 0 hchain
      rw [hlenchk] at hfk hfv
      refine ⟨?_, ?_, ?_⟩
      · rw [hfk, seg_full]
      · rw [hfv, Nat.zero_mul, Nat.mul_comm, hk4, seg_full]
      · rw [hfl, hle]
    · subst hsl
      rw [hposEq]
      obtain ⟨hfk, hfl, hfv⟩ := sliceLens_flatten send.keys send.vals send.lens
        (lowerB send.keys r0.e :: l2) 0 0 hchain
      rw [hlenchk] at hfk hfl hfv
      refine ⟨?_, ?_, ?_⟩
      · rw [hfk, seg_full]
      · rw [hfv, h5, seg_full, Nat.zero_add, (hlsum hlne).2, seg_full]
      · rw [hfl, h5, seg_full]
  refine ⟨hmainflat, ?_⟩
  intro kk hkk
  have h6 := countP_flatten_mem_one (sliced.map (fun s => s.2.keys)) kk
    (hmainflat.1 ▸ hsorted.nodup) (hmainflat.1 ▸ hkk)
  rw [List.countP_map] at h6
  exact h6




theorem C10_amended (send : KVPairsM) (r0 : KRange) (rs : List KRange)
    (sliced : List (Bool × KVPairsM))
    (hvalid : ∀ r ∈ r0 :: rs, r.b ≤ r.e)
    (hsucc : DefaultSlicer send (r0 :: rs) = some sliced) :
    ∀ kk ∈ send.keys, kk < lastEnd (r0 :: rs) 0 := by
  obtain ⟨pos, hpos, hlenchk, _⟩ := slicer_inv send (r0 :: rs) sliced hsucc
  obtain ⟨l2, hposEq, hloop⟩ := posAll_inv send.keys r0 rs pos hpos
  rw [hposEq] at hlenchk
  rw [List.getLastD_cons, List.getLastD_cons] at hlenchk
  have hp0le : lowerB send.keys r0.b ≤ send.keys.length := lowerB_le_length _ _
  have hlenle : lowerB (send.keys.drop (lowerB send.keys r0.b)) r0.e ≤
      (send.keys.drop (lowerB send.keys r0.b)).length := lowerB_le_length _ _
  have hremlen : (send.keys.drop (lowerB send.keys r0.b)).length =
      send.keys.length - lowerB send.keys r0.b := List.length_drop _ _
  have hlenchk2 : l2.getLastD (lowerB send.keys r0.b +
      lowerB (send.keys.drop (lowerB send.keys r0.b)) r0.e) =
      (lowerB send.keys r0.b + lowerB (send.keys.drop (lowerB send.keys r0.b)) r0.e) +
      ((send.keys.drop (lowerB send.keys r0.b)).drop
        (lowerB (send.keys.drop (lowerB send.keys r0.b)) r0.e)).length := by
    rw [List.length_drop]
    omega
  have hcov := posLoop_covered rs _ r0.e _ l2 hloop
    (fun r2 hr2 => hvalid r2 (List.mem_cons_of_mem r0 hr2)) hlenchk2
  have hlend : lastEnd (r0 :: rs) 0 = lastEnd rs r0.e := by
    unfold lastEnd
    rw [List.map_cons, List.getLastD_cons]
  have hre : r0.e ≤ lastEnd rs r0.e :=
    posLoop_lastE rs _ _ _ _ hloop (fun r2 hr2 => hvalid r2 (List.mem_cons_of_mem r0 hr2))
  intro kk hkk
  rw [hlend]
  have hsplit1 : send.keys.takeWhile (fun x => decide (x < r0.b)) ++
      send.keys.drop (lowerB send.keys r0.b) = send.keys := by
    unfold lowerB
    rw [drop_length_takeWhile]
    exact List.takeWhile_append_dropWhile _ _
  have hsplit2 : (send.keys.drop (lowerB send.keys r0.b)).takeWhile
        (fun x => decide (x < r0.e)) ++
      (send.keys.drop (lowerB send.keys r0.b)).drop
        (lowerB (send.keys.drop (lowerB send.keys r0.b)) r0.e) =
      send.keys.drop (lowerB send.keys r0.b) := by
    unfold lowerB
    rw [drop_length_takeWhile, drop_length_takeWhile]
    exact List.takeWhile_append_dropWhile _ _
  rw [← hsplit1] at hkk
  rcases List.mem_append.mp hkk with hk1 | hk2
  · have h7 := List.mem_takeWhile_imp hk1
    simp only [decide_eq_true_eq] at h7
    have hb := hvalid r0 (List.mem_cons_self r0 rs)
    omega
  · rw [← hsplit2] at hk2
    rcases List.mem_append.mp hk2 with hk3 | hk4
    · have h7 := List.mem_takeWhile_imp hk3
      simp only [decide_eq_true_eq] at h7
      omega
    · exact hcov kk hk4


/-- Claim C4: for every batch with ascending unique keys and every
contiguous ordered range list covering the keys (every key at or above the
first range begin; coverage above is enforced by the slicer's own pos[n]
check, which a successful run implies), with consistent value/lens sizes,
DefaultSlicer produces shards whose keys concatenated in range order
reproduce the batch keys exactly, likewise vals and lens, and every key
appears in exactly one shard. -/
theorem C4_slicer_exact (send : KVPairsM) (r0 : KRange) (rs : List KRange)
    (sliced : List (Bool × KVPairsM))
    (hsorted : List.Sorted (· < ·) send.keys)
    (hcover : ∀ kk ∈ send.keys, r0.b ≤ kk)
    (hdiv : send.lens = [] → send.keys.length ∣ send.vals.length)
    (hlsum : send.lens ≠ [] → send.lens.length = send.keys.length ∧
      send.lens.sum = send.vals.length)
    (hsucc : DefaultSlicer send (r0 :: rs) = some sliced) :
    ((sliced.map (fun s => s.2.keys)).flatten = send.keys ∧
     (sliced.map (fun s => s.2.vals)).flatten = send.vals ∧
     (sliced.map (fun s => s.2.lens)).flatten = send.lens) ∧
    ∀ kk ∈ send.keys, sliced.countP (fun s => decide (kk ∈ s.2.keys)) = 1 :=
  C4_slicer send r0 rs sliced hsorted hcover hdiv hlsum hsucc

/-- Witness for C4 on scenario S1: keys [1,3,5,7], eight values, ranges
[0,4) and [4,8). -/
theorem C4_slicer_exact_witness :
    (List.Sorted (· < ·) (⟨[1, 3, 5, 7], [1, 2, 3, 4, 5, 6, 7, 8], []⟩ : KVPairsM).keys ∧
     DefaultSlicer ⟨[1, 3, 5, 7], [1, 2, 3, 4, 5, 6, 7, 8], []⟩ [⟨0, 4⟩, ⟨4, 8⟩] =
       some [(true, ⟨[1, 3], [1, 2, 3, 4], []⟩), (true, ⟨[5, 7], [5, 6, 7, 8], []⟩)]) ∧
    ((([(true, (⟨[1, 3], [1, 2, 3, 4], []⟩ : KVPairsM)),
          (true, (⟨[5, 7], [5, 6, 7, 8], []⟩ : KVPairsM))].map (fun s => s.2.keys)).flatten =
        (⟨[1, 3, 5, 7], [1, 2, 3, 4, 5, 6, 7, 8], []⟩ : KVPairsM).keys ∧
      ([(true, (⟨[1, 3], [1, 2, 3, 4], []⟩ : KVPairsM)),
          (true, (⟨[5, 7], [5, 6, 7, 8], []⟩ : KVPairsM))].map (fun s => s.2.vals)).flatten =
        (⟨[1, 3, 5, 7], [1, 2, 3, 4, 5, 6, 7, 8], []⟩ : KVPairsM).vals ∧
      ([(true, (⟨[1, 3], [1, 2, 3, 4], []⟩ : KVPairsM)),
          (true, (⟨[5, 7], [5, 6, 7, 8], []⟩ : KVPairsM))].map (fun s => s.2.lens)).flatten =
        (⟨[1, 3, 5, 7], [1, 2, 3, 4, 5, 6, 7, 8], []⟩ : KVPairsM).lens) ∧
     ∀ kk ∈ (⟨[1, 3, 5, 7], [1, 2, 3, 4, 5, 6, 7, 8], []⟩ : KVPairsM).keys,
       [(true, (⟨[1, 3], [1, 2, 3, 4], []⟩ : KVPairsM)),
         (true, (⟨[5, 7], [5, 6, 7, 8], []⟩ : KVPairsM))].countP
           (fun s => decide (kk ∈ s.2.keys)) = 1) :=
  ⟨⟨by decide, by decide⟩,
   C4_slicer_exact ⟨[1, 3, 5, 7], [1, 2, 3, 4, 5, 6, 7, 8], []⟩ ⟨0, 4⟩ [⟨4, 8⟩]
     [(true, ⟨[1, 3], [1, 2, 3, 4], []⟩), (true, ⟨[5, 7], [5, 6, 7, 8], []⟩)]
     (by decide) (by decide) (fun _ => ⟨2, by decide⟩)
     (fun h => absurd rfl h) (by decide)⟩

/-- Counterexample to claim C10 as stated: the batch with the single key 0
and the single range [1, 2) has its key below the first range begin, yet
DefaultSlicer completes without any fatal check: the key is silently
dropped into no shard (the slicer returns one skipped shard). -/
theorem C10_counterexample :
    DefaultSlicer ⟨[0], [5], []⟩ [⟨1, 2⟩] = some [(false, ⟨[], [], []⟩)] ∧
    (0 : ℕ) < 1 := by
  exact ⟨by decide, by decide⟩

/-- Claim C10 amended: DefaultSlicer completes without a fatal assertion
only if every key of the batch lies below the last range end (a key at or
above it makes the CHECK_EQ(pos[n], keys.size()) coverage check fail); a
key below the first range begin does not trip any check and is silently
excluded from every shard. -/
theorem C10_key_below_lastEnd (send : KVPairsM) (r0 : KRange) (rs : List KRange)
    (sliced : List (Bool × KVPairsM))
    (hvalid : ∀ r ∈ r0 :: rs, r.b ≤ r.e)
    (hsucc : DefaultSlicer send (r0 :: rs) = some sliced) :
    ∀ kk ∈ send.keys, kk < lastEnd (r0 :: rs) 0 :=
  C10_amended send r0 rs sliced hvalid hsucc

/-- Witness for the amended C10 on a successful one-range slice. -/
theorem C10_key_below_lastEnd_witness :
    ((∀ r ∈ [(⟨1, 2⟩ : KRange)], r.b ≤ r.e) ∧
     DefaultSlicer ⟨[1], [5], []⟩ [⟨1, 2⟩] = some [(true, ⟨[1], [5], []⟩)]) ∧
    ∀ kk ∈ (⟨[1], [5], []⟩ : KVPairsM).keys, kk < lastEnd [⟨1, 2⟩] 0 :=
  ⟨⟨by decide, by decide⟩,
   C10_key_below_lastEnd ⟨[1], [5], []⟩ ⟨1, 2⟩ [] [(true, ⟨[1], [5], []⟩)]
     (by decide) (by decide)⟩


/-! ### C5: pull reassembly (AddPullCB) -/

/-- The head of a nonempty list with default is a member. -/
theorem headD_mem {α : Type} [Inhabited α] (l : List α) (d : α) (h : l ≠ []) :
    l.headD d ∈ l := by
  cases l with
  | nil => exact absurd rfl h
  | cons a t => exact List.mem_cons_self a t

/-- The last element of a nonempty list with default is a member. -/
theorem getLastD_mem (l : List ℕ) (d : ℕ) (h : l ≠ []) : l.getLastD d ∈ l := by
  cases l with
  | nil => exact absurd rfl h
  | cons a t =>
    rw [List.getLastD_cons]
    exact List.getLastD_mem_cons t a

/-- takeWhile over an append whose first part satisfies the predicate
throughout skips the whole first part. -/
theorem takeWhile_all_append {α : Type} (p : α → Bool) (X Y : List α)
    (hX : ∀ x ∈ X, p x = true) : (X ++ Y).takeWhile p = X ++ Y.takeWhile p := by
  induction X with
  | nil => rfl
  | cons a t ih =>
    rw [List.cons_append, List.takeWhile_cons, if_pos (hX a (List.mem_cons_self a t)),
      ih (fun x hx => hX x (List.mem_cons_of_mem a hx)), List.cons_append]

/-- In a strictly sorted list every member is at most the last element. -/
theorem sorted_mem_le_getLastD : ∀ (l : List ℕ), List.Sorted (· < ·) l →
    ∀ x ∈ l, x ≤ l.getLastD 0 := by
  intro l
  induction l with
  | nil => intro _ x hx; exact absurd hx (List.not_mem_nil x)
  | cons a t ih =>
    intro hs x hx
    obtain ⟨ha, hst⟩ := List.sorted_cons.mp hs
    rw [List.getLastD_cons]
    cases t with
    | nil =>
      rcases List.mem_cons.mp hx with rfl | hxt
      · exact le_refl _
      · exact absurd hxt (List.not_mem_nil x)
    | cons b2 t2 =>
      have hlmem : (b2 :: t2).getLastD a ∈ b2 :: t2 := by
        rw [List.getLastD_cons]
        exact List.getLastD_mem_cons t2 b2
      rcases List.mem_cons.mp hx with rfl | hxt
      · exact le_of_lt (ha _ hlmem)
      · have := ih hst x hxt
        rw [List.getLastD_cons] at this ⊢
        exact this

/-- A lower_bound count over a strictly sorted concatenation: searching the
first key of the middle block lands at its start, searching one past its
last key lands at its end. -/
theorem lowerB_infix (A B Cc : List ℕ)
    (hs : List.Sorted (· < ·) (A ++ B ++ Cc)) (hB : B ≠ []) :
    lowerB (A ++ B ++ Cc) (B.headD 0) = A.length ∧
    lowerB (A ++ B ++ Cc) (B.getLastD 0 + 1) = A.length + B.length := by
  have hpw := hs
  rw [List.Sorted, List.pairwise_append] at hpw
  obtain ⟨hsAB, hsC, hACc⟩ := hpw
  rw [List.pairwise_append] at hsAB
  obtain ⟨hsA, hsB, hAB⟩ := hsAB
  have hfmem : B.headD 0 ∈ B := headD_mem B 0 hB
  have hlmem : B.getLastD 0 ∈ B := getLastD_mem B 0 hB
  constructor
  · unfold lowerB
    rw [List.append_assoc,
      takeWhile_all_append _ A (B ++ Cc)
        (fun x hx => decide_eq_true (hAB x hx _ hfmem))]
    cases B with
    | nil => exact absurd rfl hB
    | cons bh bt =>
      rw [List.cons_append, List.takeWhile_cons, if_neg (by simp)]
      simp
  · unfold lowerB
    rw [takeWhile_all_append _ (A ++ B) Cc ?hall]
    case hall =>
      intro x hx
      rcases List.mem_append.mp hx with hxA | hxB
      · have h1 : x < B.headD 0 := hAB x hxA _ hfmem
        have h2 : B.headD 0 ≤ B.getLastD 0 := sorted_mem_le_getLastD B hsB _ hfmem
        simp only [decide_eq_true_eq]
        omega
      · have h2 : x ≤ B.getLastD 0 := sorted_mem_le_getLastD B hsB _ hxB
        simp only [decide_eq_true_eq]
        omega
    have hC : Cc.takeWhile (fun x => decide (x < B.getLastD 0 + 1)) = [] := by
      cases Cc with
      | nil => rfl
      | cons c ct =>
        rw [List.takeWhile_cons, if_neg]
        have h3 : B.getLastD 0 < c := hACc _ (List.mem_append_right A hlmem) c
          (List.mem_cons_self c ct)
        simp only [decide_eq_true_eq]
        omega
    rw [hC, List.append_nil, List.length_append]

/-- FindRange of a contiguous block of a strictly sorted key list, from its
first key to one past its last key, returns exactly the block length. -/
theorem findRangeLen_of_infix (A B Cc : List ℕ)
    (hs : List.Sorted (· < ·) (A ++ B ++ Cc)) (hB : B ≠ []) :
    findRangeLen (A ++ B ++ Cc) (B.headD 0) (B.getLastD 0 + 1) = B.length := by
  obtain ⟨h1, h2⟩ := lowerB_infix A B Cc hs hB
  unfold findRangeLen
  rw [h1, h2]
  omega

/-- Shards whose concatenated keys are the strictly sorted request keys are
pairwise strictly ordered by front key. -/
theorem pairwise_frontLt : ∀ (canonical : List KVPairsM) (reqKeys : List ℕ),
    List.Sorted (· < ·) reqKeys →
    (canonical.map (fun s => s.keys)).flatten = reqKeys →
    (∀ s ∈ canonical, s.keys ≠ []) →
    List.Pairwise frontLt canonical := by
  intro canonical
  induction canonical with
  | nil => intro _ _ _ _; exact List.Pairwise.nil
  | cons s rest ih =>
    intro reqKeys hsorted hjoin hne
    rw [List.map_cons, List.flatten_cons] at hjoin
    rw [← hjoin] at hsorted
    rw [List.Sorted, List.pairwise_append] at hsorted
    obtain ⟨hsk, hsrest, hcross⟩ := hsorted
    constructor
    · intro t ht
      have htk : t.keys ≠ [] := hne t (List.mem_cons_of_mem s ht)
      have hfront_t : frontKey t ∈ (rest.map (fun s2 => s2.keys)).flatten := by
        rw [List.mem_flatten]
        exact ⟨t.keys, List.mem_map_of_mem _ ht, headD_mem _ _ htk⟩
      have hfront_s : frontKey s ∈ s.keys :=
        headD_mem _ _ (hne s (List.mem_cons_self s rest))
      exact hcross _ hfront_s _ hfront_t
    · exact ih _ hsrest rfl (fun t ht => hne t (List.mem_cons_of_mem s ht))

/-- The std::sort of the callback recovers the canonical (front-key
strictly increasing) arrangement from any arrival order of the shards. -/
theorem insertionSort_fronts_eq (canonical entries : List KVPairsM)
    (hperm : entries.Perm canonical)
    (hpw : List.Pairwise frontLt canonical) :
    List.insertionSort frontLe entries = canonical := by
  have hperm2 : (List.insertionSort frontLe entries).Perm canonical :=
    (List.perm_insertionSort frontLe entries).trans hperm
  apply List.eq_of_perm_of_sorted hperm2 ?_ hpw
  have hsle : List.Sorted frontLe (List.insertionSort frontLe entries) :=
    List.sorted_insertionSort frontLe entries
  have hndc : (canonical.map frontKey).Nodup := by
    rw [List.Nodup, List.pairwise_map]
    exact hpw.imp (fun h => ne_of_lt h)
  have hnd2 : ((List.insertionSort frontLe entries).map frontKey).Nodup :=
    (List.Perm.nodup_iff (hperm2.map frontKey)).mpr hndc
  have hne2 : List.Pairwise (fun a b2 => frontKey a ≠ frontKey b2)
      (List.insertionSort frontLe entries) := by
    rw [List.Nodup, List.pairwise_map] at hnd2
    exact hnd2
  exact (hsle.and hne2).imp (fun h => lt_of_le_of_ne h.1 h.2)

/-- Claim C5: for a pull whose accumulated reply shards, in any arrival
order, together cover exactly the strictly sorted requested keys (their
keys concatenate, in canonical order, to the request), the completion
callback installed by AddPullCB succeeds: it passes the per-shard FindRange
and total-size checks, sorts the shards by front key back into canonical
order, returns the vals (and, when lens are used, the lens) concatenated in
request-key order, and erases recv_kvs[ts]. -/
theorem C5_pull_reassembly
    (ps : PullSt) (ts : ℤ) (reqKeys : List ℕ) (useLens : Bool)
    (canonical entries : List KVPairsM)
    (hsorted : List.Sorted (· < ·) reqKeys)
    (hcover : (canonical.map (fun s => s.keys)).flatten = reqKeys)
    (hperm : entries.Perm canonical)
    (hne : ∀ s ∈ canonical, s.keys ≠ [])
    (hlens : useLens = true → ∀ s ∈ canonical, s.lens.length = s.keys.length)
    (hrecv : ps.recv_kvs ts = entries) :
    pullComplete ps ts reqKeys useLens =
      some (((canonical.map (fun s => s.vals)).flatten,
             if useLens then (canonical.map (fun s => s.lens)).flatten else []),
            ⟨fun t => if t = ts then [] else ps.recv_kvs t⟩) := by
  have hsort_eq : List.insertionSort frontLe entries = canonical :=
    insertionSort_fronts_eq canonical entries hperm
      (pairwise_frontLt canonical reqKeys hsorted hcover hne)
  have hcondA : ∀ s ∈ entries,
      findRangeLen reqKeys (frontKey s) (backKey s + 1) = s.keys.length ∧
      (useLens = true → s.lens.length = s.keys.length) := by
    intro s hs
    have hsc : s ∈ canonical := hperm.subset hs
    obtain ⟨l₁, l₂, hdec⟩ := List.append_of_mem hsc
    have hflat : (l₁.map (fun s2 => s2.keys)).flatten ++ s.keys ++
        (l₂.map (fun s2 => s2.keys)).flatten = reqKeys := by
      rw [← hcover, hdec]
      simp [List.append_assoc]
    have hs2 : List.Sorted (· < ·) ((l₁.map (fun s2 => s2.keys)).flatten ++ s.keys ++
        (l₂.map (fun s2 => s2.keys)).flatten) := by
      rw [hflat]; exact hsorted
    refine ⟨?_, fun h => hlens h s hsc⟩
    show findRangeLen reqKeys (s.keys.headD 0) (s.keys.getLastD 0 + 1) = s.keys.length
    rw [← hflat]
    exact findRangeLen_of_infix _ _ _ hs2 (hne s hsc)
  have hcondB : (entries.map (fun s => s.keys.length)).sum = reqKeys.length := by
    have h1 : (entries.map (fun s => s.keys.length)).sum
        = (canonical.map (fun s => s.keys.length)).sum := (hperm.map _).sum_eq
    have h2 : (canonical.map (fun s => s.keys.length)).sum
        = ((canonical.map (fun s => s.keys)).flatten).length := by
      rw [List.length_flatten, List.map_map]
      rfl
    rw [h1, h2, hcover]
  have hcb : pullCB reqKeys useLens entries =
      some ((canonical.map (fun s => s.vals)).flatten,
        if useLens then (canonical.map (fun s => s.lens)).flatten else []) := by
    unfold pullCB
    rw [if_pos hcondA, if_pos hcondB, hsort_eq]
  unfold pullComplete
  rw [hrecv, hcb]
  rfl

/-- Witness for C5 on scenario S6: keys [1, 3, 5, 7] over ranges [0, 4) and
[4, 8), replies arriving out of order (shard [5, 7] first), reassembled
into vals [1, 2, 3, 4, 5, 6, 7, 8] with recv_kvs[ts] erased. -/
theorem C5_pull_reassembly_witness :
    pullComplete ⟨fun t => if t = 3 then
        [⟨[5, 7], [5, 6, 7, 8], []⟩, ⟨[1, 3], [1, 2, 3, 4], []⟩] else []⟩ 3 [1, 3, 5, 7] false =
      some ((([1, 2, 3, 4, 5, 6, 7, 8] : List ℚ), ([] : List ℕ)),
        ⟨fun t => if t = 3 then [] else
          if t = 3 then [⟨[5, 7], [5, 6, 7, 8], []⟩, ⟨[1, 3], [1, 2, 3, 4], []⟩] else []⟩) :=
  C5_pull_reassembly _ 3 [1, 3, 5, 7] false
    [⟨[1, 3], [1, 2, 3, 4], []⟩, ⟨[5, 7], [5, 6, 7, 8], []⟩]
    [⟨[5, 7], [5, 6, 7, 8], []⟩, ⟨[1, 3], [1, 2, 3, 4], []⟩]
    (by decide) (by decide)
    (List.Perm.swap _ _ _)
    (by decide) (fun h => absurd h (by decide)) rfl


end DGT
